import Mathlib

/-!
# context-tracer: verification of the tracing core and viewer helpers

Shallow embedding of the `context-tracer` repository:

* the Span data model and its lifecycle operations (`create`, `append_log`,
  `close`),
* the context-propagation manager (per-context stacks of open span ids),
  modelled as a small-step transition system over a session state,
* the scoped trace decorator (`@trace`), modelled as an interpreter for a
  small language of traced programs,
* the export tree construction and its JSON serialization,
* the viewer-side JavaScript helpers `set_durations`, `update_flame_chart`
  and `render_tree` from `flame_chart_view.js` (these are translated from
  the JavaScript source files present in the repository).

The Python tracing core itself is not among the available source files
(only its documentation, the notebook client, and the JavaScript viewer
are), so the core definitions below are modelled from the specification,
as indicated by their doc comments.
-/

namespace ContextTracer

/-! ## Span model (modelled from the spec, section 3 / 4.1) -/

/-- Modelled from the spec: the status of a span,
one of `RUNNING`, `COMPLETED`, `FAILED`, `ABORTED`. -/
inductive SpanStatus : Type where
  | RUNNING : SpanStatus
  | COMPLETED : SpanStatus
  | FAILED : SpanStatus
  | ABORTED : SpanStatus
deriving DecidableEq, Repr

/-- Modelled from the spec: a log record `{timestamp, payload}`; the
arbitrary structured payload is abstracted as an opaque string. -/
structure LogEntry : Type where
  timestamp : Nat
  payload : String
deriving DecidableEq, Repr

/-- Modelled from the spec: a Span record (spec section 3).  Timestamps are
naturals (ticks of a monotonic clock); `end_time` is absent while the span
is open.  Child ids are recovered from `parent_id` back-references. -/
structure Span : Type where
  id : Nat
  trace_id : Nat
  parent_id : Option Nat
  name : String
  start_time : Nat
  end_time : Option Nat
  status : SpanStatus
  logs : List LogEntry
deriving DecidableEq, Repr

/-- Modelled from the spec: local Span-model violation error. -/
inductive InvalidStateError : Type where
  | invalidState : InvalidStateError
deriving DecidableEq, Repr

/-- Modelled from the spec: error for logging outside any traced scope. -/
inductive NoActiveSpanError : Type where
  | noActiveSpan : NoActiveSpanError
deriving DecidableEq, Repr

/-- A span is closed when its status is no longer `RUNNING`. -/
def Span.isClosed (s : Span) : Bool := s.status ≠ SpanStatus.RUNNING

/-- Modelled from the spec: `create(name, parent_id, trace_id) -> Span`
with status `RUNNING`, `start_time` = now, no `end_time`, no logs. -/
def Span.create (name : String) (parent_id : Option Nat) (trace_id : Nat)
    (id : Nat) (now : Nat) : Span :=
  { id := id, trace_id := trace_id, parent_id := parent_id, name := name,
    start_time := now, end_time := none, status := SpanStatus.RUNNING,
    logs := [] }

/-- Modelled from the spec: `append_log(span, payload)` fails with
`InvalidStateError` if the span is not `RUNNING`; otherwise appends a
`{timestamp, payload}` record. -/
def append_log (s : Span) (payload : String) (now : Nat) :
    Except InvalidStateError Span :=
  if s.status = SpanStatus.RUNNING then
    Except.ok { s with logs := s.logs ++ [{ timestamp := now, payload := payload }] }
  else
    Except.error InvalidStateError.invalidState

/-- The three statuses a span may be closed with:
`RUNNING → {COMPLETED, FAILED, ABORTED}`. -/
inductive ClosedStatus : Type where
  | completed : ClosedStatus
  | failed : ClosedStatus
  | aborted : ClosedStatus
deriving DecidableEq, Repr

/-- The `SpanStatus` a `ClosedStatus` denotes. -/
def ClosedStatus.toStatus : ClosedStatus → SpanStatus
  | ClosedStatus.completed => SpanStatus.COMPLETED
  | ClosedStatus.failed => SpanStatus.FAILED
  | ClosedStatus.aborted => SpanStatus.ABORTED

/-- Modelled from the spec: `close(span, status)` fails with
`InvalidStateError` if the span is already closed; otherwise sets
`end_time` = now and the final status. -/
def close (s : Span) (c : ClosedStatus) (now : Nat) :
    Except InvalidStateError Span :=
  if s.status = SpanStatus.RUNNING then
    Except.ok { s with status := c.toStatus, end_time := some now }
  else
    Except.error InvalidStateError.invalidState

/-- A single span-model mutation, as offered by the Span model module. -/
inductive SpanOp : Type where
  | appendL : String → Nat → SpanOp
  | closeOp : ClosedStatus → Nat → SpanOp
deriving DecidableEq, Repr

/-- Apply one span-model operation; a failing operation (an
`InvalidStateError`) leaves the span unchanged. -/
def applySpanOp (s : Span) : SpanOp → Span
  | SpanOp.appendL p now =>
      match append_log s p now with
      | Except.ok s' => s'
      | Except.error _ => s
  | SpanOp.closeOp c now =>
      match close s c now with
      | Except.ok s' => s'
      | Except.error _ => s

/-- Apply a sequence of span-model operations from left to right. -/
def applySpanOps (s : Span) (ops : List SpanOp) : Span :=
  ops.foldl applySpanOp s

theorem applySpanOp_status (s : Span) (op : SpanOp) :
    (applySpanOp s op).status = s.status ∨
      (s.status = SpanStatus.RUNNING ∧
        ((applySpanOp s op).status = SpanStatus.COMPLETED ∨
         (applySpanOp s op).status = SpanStatus.FAILED ∨
         (applySpanOp s op).status = SpanStatus.ABORTED)) := by
  cases op with
  | appendL p now =>
      left
      by_cases h : s.status = SpanStatus.RUNNING
      · simp [applySpanOp, append_log, h]
      · simp [applySpanOp, append_log, h]
  | closeOp c now =>
      by_cases h : s.status = SpanStatus.RUNNING
      · right
        refine ⟨h, ?_⟩
        simp only [applySpanOp, close, h, if_pos]
        cases c <;> simp [ClosedStatus.toStatus]
      · left
        simp [applySpanOp, close, h]

theorem applySpanOp_closed_frozen (s : Span) (op : SpanOp)
    (h : s.status ≠ SpanStatus.RUNNING) : applySpanOp s op = s := by
  cases op with
  | appendL p now => simp [applySpanOp, append_log, h]
  | closeOp c now => simp [applySpanOp, close, h]

theorem applySpanOps_closed_frozen (s : Span) (ops : List SpanOp)
    (h : s.status ≠ SpanStatus.RUNNING) : applySpanOps s ops = s := by
  induction ops with
  | nil => rfl
  | cons op ops ih =>
      simp only [applySpanOps, List.foldl_cons]
      rw [applySpanOp_closed_frozen s op h]
      exact ih

/-! ## Viewer JavaScript (`flame_chart_view.js`, translated from source) -/

/-- A JavaScript number as it arises in `set_durations`: either a genuine
(natural) number or `NaN`, which results from adding an `undefined` or
`NaN` value. -/
inductive JsNum : Type where
  | num : Nat → JsNum
  | nan : JsNum
deriving DecidableEq, Repr

/-- JavaScript addition `a + v` where `v` is the possibly-absent `value`
field of a node: adding `undefined` (`none`) or `NaN` yields `NaN`. -/
def jsAddV : JsNum → Option JsNum → JsNum
  | JsNum.num a, some (JsNum.num b) => JsNum.num (a + b)
  | _, _ => JsNum.nan

/-- A tree node object as consumed by `flame_chart_view.js`: fields
`name`, `data`, `children` and `value`, with `none` modelling an absent
field (note that an empty `children` array is present, hence truthy in
the JavaScript `if (obj.children)` test). -/
inductive JsNode : Type where
  | mk : String → Option String → Option (List JsNode) → Option JsNum → JsNode

/-- The `name` field of a node. -/
def JsNode.name : JsNode → String
  | JsNode.mk n _ _ _ => n

/-- The `data` field of a node. -/
def JsNode.data : JsNode → Option String
  | JsNode.mk _ d _ _ => d

/-- The `children` field of a node. -/
def JsNode.children : JsNode → Option (List JsNode)
  | JsNode.mk _ _ cs _ => cs

/-- The `value` field of a node. -/
def JsNode.value : JsNode → Option JsNum
  | JsNode.mk _ _ _ v => v

mutual

/-- `set_durations` from
`tracing_viewer/server_static/flame_chart_view.js`:
`if (obj.children) { obj.value = obj.children.reduce((a, b) => a + set_durations(b).value, 1); } return obj`.
The in-place mutation of each child by the reduce callback is modelled by
rebuilding the children list. -/
def set_durations : JsNode → JsNode
  | JsNode.mk n d (some cs) _ =>
      let cs' := set_durations_list cs
      JsNode.mk n d (some cs')
        (some (cs'.foldl (fun a b => jsAddV a b.value) (JsNum.num 1)))
  | JsNode.mk n d none v => JsNode.mk n d none v

/-- `set_durations` applied to each element of a children array, in
order (the traversal performed by the `reduce`). -/
def set_durations_list : List JsNode → List JsNode
  | [] => []
  | c :: cs => set_durations c :: set_durations_list cs

end

/-- `update_flame_chart` from
`tracing_viewer/server_static/flame_chart_view.js` first runs
`data_obj = set_durations(data_obj)` and then redraws the chart from that
object (`flame_chart.update(data_obj)`); this definition is the data
object handed to the redraw. -/
def update_flame_chart_data (data_obj : JsNode) : JsNode :=
  set_durations data_obj

/-- An abstract DOM tree, recording which element classes are created and
which node fields their contents are read from. -/
inductive Dom : Type where
  | elem : String → List Dom → Dom
  | text : String → Dom

mutual

/-- `render_tree` from
`tracing_export/html_repr/flame_chart_view.js`, as the abstract DOM
subtree it appends to its parent: a `tree-node` div holding a header
(collapse buttons when `data.children && data.children.length > 0`, and
the name) and a body (the rendered `data.data` when present, then the
recursively rendered children when `data.children` is present). -/
def render_tree : JsNode → Dom
  | JsNode.mk n d cs _ =>
      let hasKids : Bool :=
        match cs with
        | some l => decide (0 < l.length)
        | none => false
      let header :=
        Dom.elem "div.tree-node-header"
          ((if hasKids then [Dom.elem "button.button-collapse-node" []] else []) ++
           [Dom.elem "span.name" [Dom.text n]] ++
           (if hasKids then [Dom.elem "button.button-collapse-all" []] else []))
      let dataDom :=
        match d with
        | some payload => [Dom.elem "jsonview" [Dom.text payload]]
        | none => []
      let kids :=
        match cs with
        | some l => render_tree_list l
        | none => []
      Dom.elem "div.tree-node"
        [header, Dom.elem "div.tree-node-body" (dataDom ++ kids)]

/-- `render_tree` applied to each child, in order rendered. -/
def render_tree_list : List JsNode → List Dom
  | [] => []
  | c :: cs => render_tree c :: render_tree_list cs

end

mutual

/-- Replace every `value` field in a tree by `none` (absent), keeping
`name`, `data` and the children structure. -/
def eraseValues : JsNode → JsNode
  | JsNode.mk n d (some cs) _ => JsNode.mk n d (some (eraseValues_list cs)) none
  | JsNode.mk n d none _ => JsNode.mk n d none none

/-- `eraseValues` applied to each element of a children array. -/
def eraseValues_list : List JsNode → List JsNode
  | [] => []
  | c :: cs => eraseValues c :: eraseValues_list cs

end

mutual

/-- Does every node of the tree carry a `children` field (possibly an
empty array)?  This is the shape of the export tree schema. -/
def allKids : JsNode → Bool
  | JsNode.mk _ _ (some cs) _ => allKids_list cs
  | JsNode.mk _ _ none _ => false

/-- `allKids` for every element of a children array. -/
def allKids_list : List JsNode → Bool
  | [] => true
  | c :: cs => allKids c && allKids_list cs

end

mutual

/-- The number of nodes in the tree (the node itself plus all its
descendants, through present `children` fields). -/
def countNodes : JsNode → Nat
  | JsNode.mk _ _ (some cs) _ => 1 + countNodes_list cs
  | JsNode.mk _ _ none _ => 1

/-- Total node count of a list of trees. -/
def countNodes_list : List JsNode → Nat
  | [] => 0
  | c :: cs => countNodes c + countNodes_list cs

end

@[simp]
theorem JsNode.value_mk (n : String) (d : Option String)
    (cs : Option (List JsNode)) (v : Option JsNum) :
    (JsNode.mk n d cs v).value = v := rfl

@[simp]
theorem jsAddV_num (a b : Nat) :
    jsAddV (JsNum.num a) (some (JsNum.num b)) = JsNum.num (a + b) := rfl

theorem eraseValues_list_length (l : List JsNode) :
    (eraseValues_list l).length = l.length := by
  induction l with
  | nil => rfl
  | cons c cs ih => simp [eraseValues_list, ih]

theorem foldl_jsAddV (l : List JsNode) (vals : List Nat)
    (h : l.map JsNode.value = vals.map (fun k => some (JsNum.num k))) :
    ∀ k, l.foldl (fun a b => jsAddV a b.value) (JsNum.num k) =
      JsNum.num (k + vals.sum) := by
  induction l generalizing vals with
  | nil =>
      intro k
      have : vals = [] := by
        cases vals with
        | nil => rfl
        | cons w ws => simp at h
      simp [this]
  | cons b l ih =>
      intro k
      cases vals with
      | nil => simp at h
      | cons w ws =>
          simp only [List.map_cons, List.cons.injEq] at h
          obtain ⟨hb, hl⟩ := h
          simp only [List.foldl_cons, hb, jsAddV_num]
          rw [ih ws hl (k + w)]
          simp only [List.sum_cons]
          congr 1
          ring

mutual

theorem set_durations_count (t : JsNode) (h : allKids t = true) :
    (set_durations t).value = some (JsNum.num (countNodes t)) := by
  cases t with
  | mk n d cs v =>
      cases cs with
      | none => simp [allKids] at h
      | some l =>
          simp only [set_durations, JsNode.value_mk, countNodes]
          simp only [allKids] at h
          rw [set_durations_count_list l h 1]

theorem set_durations_count_list (l : List JsNode) (h : allKids_list l = true) :
    ∀ k, (set_durations_list l).foldl (fun a b => jsAddV a b.value) (JsNum.num k) =
      JsNum.num (k + countNodes_list l) := by
  cases l with
  | nil =>
      intro k
      simp [set_durations_list, countNodes_list]
  | cons c cs =>
      intro k
      simp only [allKids_list, Bool.and_eq_true] at h
      have hstep : jsAddV (JsNum.num k) (set_durations c).value =
          JsNum.num (k + countNodes c) := by
        rw [set_durations_count c h.1, jsAddV_num]
      simp only [set_durations_list, List.foldl_cons, hstep]
      rw [set_durations_count_list cs h.2 (k + countNodes c)]
      simp only [countNodes_list]
      congr 1
      ring

end

mutual

theorem set_durations_eraseValues (t : JsNode) (h : allKids t = true) :
    set_durations (eraseValues t) = set_durations t := by
  cases t with
  | mk n d cs v =>
      cases cs with
      | none => simp [allKids] at h
      | some l =>
          simp only [allKids] at h
          simp only [eraseValues, set_durations,
            set_durations_eraseValues_list l h]

theorem set_durations_eraseValues_list (l : List JsNode)
    (h : allKids_list l = true) :
    set_durations_list (eraseValues_list l) = set_durations_list l := by
  cases l with
  | nil => rfl
  | cons c cs =>
      simp only [allKids_list, Bool.and_eq_true] at h
      simp only [eraseValues_list, set_durations_list,
        set_durations_eraseValues c h.1,
        set_durations_eraseValues_list cs h.2]

end

mutual

theorem render_tree_eraseValues (t : JsNode) :
    render_tree (eraseValues t) = render_tree t := by
  cases t with
  | mk n d cs v =>
      cases cs with
      | none => simp [eraseValues, render_tree]
      | some l =>
          simp only [eraseValues, render_tree, eraseValues_list_length,
            render_tree_eraseValues_list l]

theorem render_tree_eraseValues_list (l : List JsNode) :
    render_tree_list (eraseValues_list l) = render_tree_list l := by
  cases l with
  | nil => rfl
  | cons c cs =>
      simp only [eraseValues_list, render_tree_list,
        render_tree_eraseValues c, render_tree_eraseValues_list cs]

end

/-! ## Context propagation manager and span store
(modelled from the spec, sections 4.2, 4.3, 4.4) -/

/-- Modelled from the spec: the session state. The span store holds all
spans in creation order; each logical execution context owns a private
stack of currently-open `(span id, trace_id)` pairs; `nextId` and
`nextTrace` generate fresh time-sortable ids; `clock` is the monotonic
clock, advanced at every step. -/
structure TraceState : Type where
  spans : List Span
  ctxStacks : Nat → List (Nat × Nat)
  nextId : Nat
  nextTrace : Nat
  clock : Nat

/-- The initial session state: no spans, all context stacks empty. -/
def initState : TraceState :=
  { spans := [], ctxStacks := fun _ => [], nextId := 0, nextTrace := 0,
    clock := 0 }

/-- Update the span with the given id in the store. -/
def updateSpan (L : List Span) (i : Nat) (f : Span → Span) : List Span :=
  L.map (fun s => if s.id = i then f s else s)

/-- `close` with the `InvalidStateError` swallowed: a failing close (span
already closed) leaves the span unchanged; such failures are never
surfaced to the instrumented business logic. -/
def closeOr (s : Span) (c : ClosedStatus) (now : Nat) : Span :=
  match close s c now with
  | Except.ok s' => s'
  | Except.error _ => s

/-- `append_log` with the `InvalidStateError` swallowed. -/
def appendLogOr (s : Span) (payload : String) (now : Nat) : Span :=
  match append_log s payload now with
  | Except.ok s' => s'
  | Except.error _ => s

/-- Modelled from the spec: the primitive session operations: entering a
traced call in a context, leaving it normally or with an escaping error,
an ad-hoc log call, and session shutdown. -/
inductive Op : Type where
  | enter : Nat → String → Op
  | exitOk : Nat → Op
  | exitErr : Nat → String → Op
  | logp : Nat → String → Op
  | shutdown : Op

/-- Modelled from the spec: one step of the tracing session.  `enter`
reads the top of the context's stack (`none` meaning a new trace root),
creates a child/root span and pushes it; `exitOk` pops and closes the
span as `COMPLETED`; `exitErr` records the error as a log entry, then
pops and closes the span as `FAILED`; `logp` appends to the current span
and degrades to a no-op outside any traced scope; `shutdown` force-closes
every still-`RUNNING` span as `ABORTED` and clears the stacks. -/
def step (st : TraceState) : Op → TraceState
  | Op.enter ctx name =>
      match st.ctxStacks ctx with
      | [] =>
          let sp := Span.create name none st.nextTrace st.nextId st.clock
          { spans := st.spans ++ [sp],
            ctxStacks := fun c =>
              if c = ctx then [(st.nextId, st.nextTrace)] else st.ctxStacks c,
            nextId := st.nextId + 1, nextTrace := st.nextTrace + 1,
            clock := st.clock + 1 }
      | (p, ptid) :: rest =>
          let sp := Span.create name (some p) ptid st.nextId st.clock
          { spans := st.spans ++ [sp],
            ctxStacks := fun c =>
              if c = ctx then (st.nextId, ptid) :: (p, ptid) :: rest
              else st.ctxStacks c,
            nextId := st.nextId + 1, nextTrace := st.nextTrace,
            clock := st.clock + 1 }
  | Op.exitOk ctx =>
      match st.ctxStacks ctx with
      | [] => { st with clock := st.clock + 1 }
      | (i, _) :: rest =>
          { st with
            spans := updateSpan st.spans i
              (fun s => closeOr s ClosedStatus.completed st.clock),
            ctxStacks := fun c => if c = ctx then rest else st.ctxStacks c,
            clock := st.clock + 1 }
  | Op.exitErr ctx e =>
      match st.ctxStacks ctx with
      | [] => { st with clock := st.clock + 1 }
      | (i, _) :: rest =>
          { st with
            spans := updateSpan st.spans i
              (fun s =>
                closeOr (appendLogOr s e st.clock) ClosedStatus.failed st.clock),
            ctxStacks := fun c => if c = ctx then rest else st.ctxStacks c,
            clock := st.clock + 1 }
  | Op.logp ctx payload =>
      match st.ctxStacks ctx with
      | [] => { st with clock := st.clock + 1 }
      | (i, _) :: _ =>
          { st with
            spans := updateSpan st.spans i
              (fun s => appendLogOr s payload st.clock),
            clock := st.clock + 1 }
  | Op.shutdown =>
      { st with
        spans := st.spans.map (fun s => closeOr s ClosedStatus.aborted st.clock),
        ctxStacks := fun _ => [],
        clock := st.clock + 1 }

/-- The states of the span store reachable from the initial session
state by session operations. -/
inductive Reachable : TraceState → Prop where
  | init : Reachable initState
  | next : ∀ {st : TraceState} (op : Op), Reachable st → Reachable (step st op)

/-! ### Field-preservation lemmas for the store update helpers -/

theorem ClosedStatus.toStatus_ne_running (c : ClosedStatus) :
    c.toStatus ≠ SpanStatus.RUNNING := by
  cases c <;> simp [ClosedStatus.toStatus]

theorem closeOr_of_running {s : Span} (c : ClosedStatus) (now : Nat)
    (h : s.status = SpanStatus.RUNNING) :
    closeOr s c now = { s with status := c.toStatus, end_time := some now } := by
  simp [closeOr, close, h]

theorem closeOr_of_closed {s : Span} (c : ClosedStatus) (now : Nat)
    (h : s.status ≠ SpanStatus.RUNNING) : closeOr s c now = s := by
  simp [closeOr, close, h]

theorem closeOr_id (s : Span) (c : ClosedStatus) (now : Nat) :
    (closeOr s c now).id = s.id := by
  by_cases h : s.status = SpanStatus.RUNNING
  · simp [closeOr_of_running c now h]
  · simp [closeOr_of_closed c now h]

theorem closeOr_trace (s : Span) (c : ClosedStatus) (now : Nat) :
    (closeOr s c now).trace_id = s.trace_id := by
  by_cases h : s.status = SpanStatus.RUNNING
  · simp [closeOr_of_running c now h]
  · simp [closeOr_of_closed c now h]

theorem closeOr_parent (s : Span) (c : ClosedStatus) (now : Nat) :
    (closeOr s c now).parent_id = s.parent_id := by
  by_cases h : s.status = SpanStatus.RUNNING
  · simp [closeOr_of_running c now h]
  · simp [closeOr_of_closed c now h]

theorem closeOr_name (s : Span) (c : ClosedStatus) (now : Nat) :
    (closeOr s c now).name = s.name := by
  by_cases h : s.status = SpanStatus.RUNNING
  · simp [closeOr_of_running c now h]
  · simp [closeOr_of_closed c now h]

theorem closeOr_start (s : Span) (c : ClosedStatus) (now : Nat) :
    (closeOr s c now).start_time = s.start_time := by
  by_cases h : s.status = SpanStatus.RUNNING
  · simp [closeOr_of_running c now h]
  · simp [closeOr_of_closed c now h]

theorem closeOr_status_ne (s : Span) (c : ClosedStatus) (now : Nat)
    (h : s.status ≠ SpanStatus.RUNNING) : (closeOr s c now).status = s.status := by
  simp [closeOr_of_closed c now h]

theorem appendLogOr_of_running {s : Span} (payload : String) (now : Nat)
    (h : s.status = SpanStatus.RUNNING) :
    appendLogOr s payload now =
      { s with logs := s.logs ++ [{ timestamp := now, payload := payload }] } := by
  simp [appendLogOr, append_log, h]

theorem appendLogOr_of_closed {s : Span} (payload : String) (now : Nat)
    (h : s.status ≠ SpanStatus.RUNNING) : appendLogOr s payload now = s := by
  simp [appendLogOr, append_log, h]

theorem appendLogOr_id (s : Span) (payload : String) (now : Nat) :
    (appendLogOr s payload now).id = s.id := by
  by_cases h : s.status = SpanStatus.RUNNING
  · simp [appendLogOr_of_running payload now h]
  · simp [appendLogOr_of_closed payload now h]

theorem appendLogOr_trace (s : Span) (payload : String) (now : Nat) :
    (appendLogOr s payload now).trace_id = s.trace_id := by
  by_cases h : s.status = SpanStatus.RUNNING
  · simp [appendLogOr_of_running payload now h]
  · simp [appendLogOr_of_closed payload now h]

theorem appendLogOr_parent (s : Span) (payload : String) (now : Nat) :
    (appendLogOr s payload now).parent_id = s.parent_id := by
  by_cases h : s.status = SpanStatus.RUNNING
  · simp [appendLogOr_of_running payload now h]
  · simp [appendLogOr_of_closed payload now h]

theorem appendLogOr_name (s : Span) (payload : String) (now : Nat) :
    (appendLogOr s payload now).name = s.name := by
  by_cases h : s.status = SpanStatus.RUNNING
  · simp [appendLogOr_of_running payload now h]
  · simp [appendLogOr_of_closed payload now h]

theorem appendLogOr_start (s : Span) (payload : String) (now : Nat) :
    (appendLogOr s payload now).start_time = s.start_time := by
  by_cases h : s.status = SpanStatus.RUNNING
  · simp [appendLogOr_of_running payload now h]
  · simp [appendLogOr_of_closed payload now h]

theorem appendLogOr_status (s : Span) (payload : String) (now : Nat) :
    (appendLogOr s payload now).status = s.status := by
  by_cases h : s.status = SpanStatus.RUNNING
  · simp [appendLogOr_of_running payload now h]
  · simp [appendLogOr_of_closed payload now h]

theorem appendLogOr_end (s : Span) (payload : String) (now : Nat) :
    (appendLogOr s payload now).end_time = s.end_time := by
  by_cases h : s.status = SpanStatus.RUNNING
  · simp [appendLogOr_of_running payload now h]
  · simp [appendLogOr_of_closed payload now h]

/-! ### The store invariant -/

/-- Well-formedness of one context stack against the store: every stack
entry is a `RUNNING` span of the store, its recorded parent is the entry
just below it (`none` at the bottom: the trace root), and entries are
strictly decreasing in id (deeper spans were created earlier). -/
def StackOK (L : List Span) : List (Nat × Nat) → Prop
  | [] => True
  | (i, tid) :: rest =>
      (∃ s ∈ L, s.id = i ∧ s.trace_id = tid ∧
        s.status = SpanStatus.RUNNING ∧
        s.parent_id = (rest.head?).map Prod.fst) ∧
      (∀ e ∈ rest, e.1 < i) ∧ StackOK L rest

/-- The number of root spans (no `parent_id`) recorded for a trace. -/
def rootCount (L : List Span) (tid : Nat) : Nat :=
  (L.filter (fun s => decide (s.trace_id = tid) && decide (s.parent_id = none))).length

/-- The store invariant maintained by every session operation. -/
structure Inv (st : TraceState) : Prop where
  ids_lt : ∀ s ∈ st.spans, s.id < st.nextId
  ids_nodup : (st.spans.map Span.id).Nodup
  trace_lt : ∀ s ∈ st.spans, s.trace_id < st.nextTrace
  parent_ok : ∀ s ∈ st.spans, ∀ p, s.parent_id = some p →
      ∃ t ∈ st.spans, t.id = p ∧ t.trace_id = s.trace_id ∧ p < s.id
  root_unique : ∀ s ∈ st.spans, rootCount st.spans s.trace_id = 1
  start_lt : ∀ s ∈ st.spans, s.start_time < st.clock
  end_ok : ∀ s ∈ st.spans, ∀ t, s.end_time = some t →
      s.start_time ≤ t ∧ t < st.clock
  status_end : ∀ s ∈ st.spans,
      (s.status = SpanStatus.RUNNING ↔ s.end_time = none)
  stacks_ok : ∀ ctx, StackOK st.spans (st.ctxStacks ctx)
  stacks_disj : ∀ c1 c2 e1 e2, e1 ∈ st.ctxStacks c1 → e2 ∈ st.ctxStacks c2 →
      e1.1 = e2.1 → c1 = c2
  running_on_stack : ∀ s ∈ st.spans, s.status = SpanStatus.RUNNING →
      ∃ ctx tid, (s.id, tid) ∈ st.ctxStacks ctx
  parent_end : ∀ c ∈ st.spans, ∀ p, c.parent_id = some p →
      ∀ ps ∈ st.spans, ps.id = p → ∀ tp, ps.end_time = some tp →
      ∀ tc, c.end_time = some tc → tc ≤ tp

/-! ### Store update transport lemmas -/

theorem mem_updateSpan {L : List Span} {i : Nat} {f : Span → Span} {s' : Span}
    (h : s' ∈ updateSpan L i f) :
    ∃ s ∈ L, (s.id ≠ i ∧ s' = s) ∨ (s.id = i ∧ s' = f s) := by
  simp only [updateSpan, List.mem_map] at h
  obtain ⟨s, hs, hs'⟩ := h
  refine ⟨s, hs, ?_⟩
  by_cases hid : s.id = i
  · right
    exact ⟨hid, by rw [← hs', if_pos hid]⟩
  · left
    exact ⟨hid, by rw [← hs', if_neg hid]⟩

theorem updateSpan_mem_of_mem {L : List Span} {s : Span} (i : Nat)
    (f : Span → Span) (hs : s ∈ L) :
    (if s.id = i then f s else s) ∈ updateSpan L i f :=
  List.mem_map_of_mem _ hs

theorem updateSpan_mem_of_mem_ne {L : List Span} {s : Span} {i : Nat}
    (f : Span → Span) (hs : s ∈ L) (hne : s.id ≠ i) :
    s ∈ updateSpan L i f := by
  have := updateSpan_mem_of_mem i f hs
  rwa [if_neg hne] at this

theorem map_ids_eq (L : List Span) (g : Span → Span)
    (hg : ∀ s, (g s).id = s.id) :
    (L.map g).map Span.id = L.map Span.id := by
  rw [List.map_map]
  exact List.map_congr_left (fun s _ => hg s)

theorem rootCount_map (L : List Span) (g : Span → Span) (tid : Nat)
    (hg : ∀ s, (g s).trace_id = s.trace_id ∧ (g s).parent_id = s.parent_id) :
    rootCount (L.map g) tid = rootCount L tid := by
  unfold rootCount
  rw [List.filter_map]
  rw [List.length_map]
  congr 1
  apply List.filter_congr
  intro s _
  simp [Function.comp, (hg s).1, (hg s).2]

theorem rootCount_append_root (L : List Span) (sp : Span)
    (h1 : sp.parent_id = none) :
    rootCount (L ++ [sp]) sp.trace_id = rootCount L sp.trace_id + 1 := by
  unfold rootCount
  rw [List.filter_append, List.length_append]
  simp [h1]

theorem rootCount_append_other (L : List Span) (sp : Span) (tid : Nat)
    (h : ¬ (sp.trace_id = tid ∧ sp.parent_id = none)) :
    rootCount (L ++ [sp]) tid = rootCount L tid := by
  unfold rootCount
  rw [List.filter_append, List.length_append]
  have : (List.filter (fun s => decide (s.trace_id = tid) && decide (s.parent_id = none)) [sp]).length = 0 := by
    by_cases h1 : sp.trace_id = tid
    · have h2 : sp.parent_id ≠ none := fun hc => h ⟨h1, hc⟩
      simp [h1, h2]
    · simp [h1]
  omega

theorem rootCount_zero_of_trace_lt (L : List Span) (tid : Nat)
    (h : ∀ s ∈ L, s.trace_id ≠ tid) : rootCount L tid = 0 := by
  unfold rootCount
  rw [List.length_eq_zero]
  rw [List.filter_eq_nil_iff]
  intro s hs
  simp [h s hs]

/-! ### Stack well-formedness lemmas -/

theorem stackOK_append {L L2 : List Span} {stk : List (Nat × Nat)}
    (h : StackOK L stk) : StackOK (L ++ L2) stk := by
  induction stk with
  | nil => trivial
  | cons e rest ih =>
      obtain ⟨e1, e2⟩ := e
      obtain ⟨⟨s, hs, hprops⟩, hlt, hrest⟩ := h
      exact ⟨⟨s, List.mem_append_left _ hs, hprops⟩, hlt, ih hrest⟩

theorem stackOK_update_notin {L : List Span} {stk : List (Nat × Nat)}
    {i : Nat} (f : Span → Span) (h : StackOK L stk)
    (hni : ∀ e ∈ stk, e.1 ≠ i) : StackOK (updateSpan L i f) stk := by
  induction stk with
  | nil => trivial
  | cons e rest ih =>
      obtain ⟨e1, e2⟩ := e
      obtain ⟨⟨s, hs, hid, hprops⟩, hlt, hrest⟩ := h
      refine ⟨⟨s, ?_, hid, hprops⟩, hlt, ih hrest (fun e he => hni e (List.mem_cons_of_mem _ he))⟩
      have hne : s.id ≠ i := by
        rw [hid]
        exact hni (e1, e2) (List.mem_cons_self _ _)
      exact updateSpan_mem_of_mem_ne f hs hne

theorem stackOK_update_keep {L : List Span} {stk : List (Nat × Nat)}
    {i : Nat} {f : Span → Span}
    (hf : ∀ s, (f s).id = s.id ∧ (f s).trace_id = s.trace_id ∧
      (f s).status = s.status ∧ (f s).parent_id = s.parent_id)
    (h : StackOK L stk) : StackOK (updateSpan L i f) stk := by
  induction stk with
  | nil => trivial
  | cons e rest ih =>
      obtain ⟨e1, e2⟩ := e
      obtain ⟨⟨s, hs, hid, htid, hst, hpar⟩, hlt, hrest⟩ := h
      refine ⟨⟨if s.id = i then f s else s, updateSpan_mem_of_mem i f hs, ?_⟩,
        hlt, ih hrest⟩
      by_cases hcase : s.id = i
      · rw [if_pos hcase]
        exact ⟨(hf s).1.trans hid, (hf s).2.1.trans htid,
          (hf s).2.2.1.trans hst, (hf s).2.2.2.trans hpar⟩
      · rw [if_neg hcase]
        exact ⟨hid, htid, hst, hpar⟩

theorem stackOK_mem {L : List Span} {stk : List (Nat × Nat)}
    (h : StackOK L stk) {i tid : Nat} (hm : (i, tid) ∈ stk) :
    ∃ rest : List (Nat × Nat),
      (∀ e ∈ rest, e ∈ stk) ∧ (∀ e ∈ rest, e.1 < i) ∧
      ∃ s ∈ L, s.id = i ∧ s.trace_id = tid ∧
        s.status = SpanStatus.RUNNING ∧
        s.parent_id = (rest.head?).map Prod.fst := by
  induction stk with
  | nil => cases hm
  | cons e rest ih =>
      obtain ⟨e1, e2⟩ := e
      obtain ⟨⟨s, hs, hid, htid, hst, hpar⟩, hlt, hrest⟩ := h
      rcases List.mem_cons.mp hm with heq | hmem
      · obtain ⟨h1, h2⟩ := Prod.mk.injEq .. ▸ heq
        subst h1
        subst h2
        exact ⟨rest, fun e he => List.mem_cons_of_mem _ he, hlt,
          s, hs, hid, htid, hst, hpar⟩
      · obtain ⟨r', hr1, hr2, hsp⟩ := ih hrest hmem
        exact ⟨r', fun e he => List.mem_cons_of_mem _ (hr1 e he), hr2, hsp⟩

theorem stackOK_ids_lt {L : List Span} {stk : List (Nat × Nat)} {n : Nat}
    (h : StackOK L stk) (hlt : ∀ s ∈ L, s.id < n) :
    ∀ e ∈ stk, e.1 < n := by
  induction stk with
  | nil => intro e he; cases he
  | cons e rest ih =>
      obtain ⟨e1, e2⟩ := e
      obtain ⟨⟨s, hs, hid, _⟩, _, hrest⟩ := h
      intro e' he'
      rcases List.mem_cons.mp he' with heq | hmem
      · subst heq
        exact hid ▸ hlt s hs
      · exact ih hrest e' hmem

theorem span_eq_of_id {L : List Span} (hnd : (L.map Span.id).Nodup)
    {a b : Span} (ha : a ∈ L) (hb : b ∈ L) (hid : a.id = b.id) : a = b :=
  List.inj_on_of_nodup_map hnd ha hb hid

/-- In an invariant state, a `RUNNING` span's recorded parent is itself
`RUNNING` (children close before their parents). -/
theorem running_parent_running {st : TraceState} (hinv : Inv st) {c : Span}
    (hc : c ∈ st.spans) (hrun : c.status = SpanStatus.RUNNING) {p : Nat}
    (hp : c.parent_id = some p) :
    ∃ ps ∈ st.spans, ps.id = p ∧ ps.status = SpanStatus.RUNNING := by
  obtain ⟨ctx, tid, hmem⟩ := hinv.running_on_stack c hc hrun
  obtain ⟨rest, hsub, _, s, hsmem, hsid, _, _, hspar⟩ :=
    stackOK_mem (hinv.stacks_ok ctx) hmem
  have hsc : s = c := span_eq_of_id hinv.ids_nodup hsmem hc hsid
  subst hsc
  rw [hp] at hspar
  cases hrest : rest with
  | nil => rw [hrest] at hspar; simp at hspar
  | cons e rest' =>
      rw [hrest] at hspar
      simp only [List.head?_cons, Option.map_some'] at hspar
      have he : e ∈ st.ctxStacks ctx := by
        apply hsub
        rw [hrest]
        exact List.mem_cons_self _ _
      obtain ⟨e1, e2⟩ := e
      obtain ⟨_, _, _, ps, hpsmem, hpsid, _, hpsrun, _⟩ :=
        stackOK_mem (hinv.stacks_ok ctx) he
      refine ⟨ps, hpsmem, ?_, hpsrun⟩
      rw [hpsid]
      exact (Option.some.injEq .. ▸ hspar).symm

theorem inv_enter_nil {st : TraceState} {ctx : Nat} {nm : String}
    (hinv : Inv st) (hstk : st.ctxStacks ctx = []) :
    Inv (step st (Op.enter ctx nm)) := by
  have hstep : step st (Op.enter ctx nm) =
      { spans := st.spans ++ [Span.create nm none st.nextTrace st.nextId st.clock],
        ctxStacks := fun c =>
          if c = ctx then [(st.nextId, st.nextTrace)] else st.ctxStacks c,
        nextId := st.nextId + 1, nextTrace := st.nextTrace + 1,
        clock := st.clock + 1 } := by
    simp only [step, hstk]
  rw [hstep]
  set sp := Span.create nm none st.nextTrace st.nextId st.clock with hsp
  have hspfields : sp.id = st.nextId ∧ sp.trace_id = st.nextTrace ∧
      sp.parent_id = none ∧ sp.start_time = st.clock ∧
      sp.end_time = none ∧ sp.status = SpanStatus.RUNNING := by
    simp [hsp, Span.create]
  obtain ⟨hid, htid, hpar, hstart, hend, hstat⟩ := hspfields
  refine
    { ids_lt := ?_, ids_nodup := ?_, trace_lt := ?_, parent_ok := ?_,
      root_unique := ?_, start_lt := ?_, end_ok := ?_, status_end := ?_,
      stacks_ok := ?_, stacks_disj := ?_, running_on_stack := ?_,
      parent_end := ?_ }
  · intro s hs
    rcases List.mem_append.mp hs with hs | hs
    · exact Nat.lt_succ_of_lt (hinv.ids_lt s hs)
    · rw [List.mem_singleton.mp hs, hid]
      exact Nat.lt_succ_self _
  · rw [List.map_append]
    apply List.Nodup.append hinv.ids_nodup (by simp)
    intro a ha hb
    simp only [List.map_cons, List.map_nil, List.mem_singleton] at hb
    rw [hb, hid] at ha
    obtain ⟨s, hsmem, hsid⟩ := List.mem_map.mp ha
    exact absurd hsid (Nat.ne_of_lt (hinv.ids_lt s hsmem))
  · intro s hs
    rcases List.mem_append.mp hs with hs | hs
    · exact Nat.lt_succ_of_lt (hinv.trace_lt s hs)
    · rw [List.mem_singleton.mp hs, htid]
      exact Nat.lt_succ_self _
  · intro s hs p hp
    rcases List.mem_append.mp hs with hs | hs
    · obtain ⟨t, htmem, htprops⟩ := hinv.parent_ok s hs p hp
      exact ⟨t, List.mem_append_left _ htmem, htprops⟩
    · rw [List.mem_singleton.mp hs, hpar] at hp
      cases hp
  · intro s hs
    rcases List.mem_append.mp hs with hs | hs
    · rw [rootCount_append_other st.spans sp s.trace_id]
      · exact hinv.root_unique s hs
      · intro ⟨h1, _⟩
        rw [htid] at h1
        exact absurd h1.symm (Nat.ne_of_lt (hinv.trace_lt s hs))
    · rw [List.mem_singleton.mp hs, ← htid, rootCount_append_root st.spans sp hpar,
        rootCount_zero_of_trace_lt]
      intro t ht
      rw [htid]
      exact Nat.ne_of_lt (hinv.trace_lt t ht)
  · intro s hs
    rcases List.mem_append.mp hs with hs | hs
    · exact Nat.lt_succ_of_lt (hinv.start_lt s hs)
    · rw [List.mem_singleton.mp hs, hstart]
      exact Nat.lt_succ_self _
  · intro s hs t ht
    rcases List.mem_append.mp hs with hs | hs
    · obtain ⟨h1, h2⟩ := hinv.end_ok s hs t ht
      exact ⟨h1, Nat.lt_succ_of_lt h2⟩
    · rw [List.mem_singleton.mp hs, hend] at ht
      cases ht
  · intro s hs
    rcases List.mem_append.mp hs with hs | hs
    · exact hinv.status_end s hs
    · rw [List.mem_singleton.mp hs, hstat, hend]
      simp
  · intro c
    by_cases hc : c = ctx
    · simp only [hc, if_pos rfl]
      exact ⟨⟨sp, List.mem_append_right _ (List.mem_singleton_self _),
        hid, htid, hstat, by simp [hpar]⟩, by simp, trivial⟩
    · simp only [if_neg hc]
      exact stackOK_append (hinv.stacks_ok c)
  · intro c1 c2 e1 e2 he1 he2 heq
    have he1' : e1 ∈ (if c1 = ctx then [(st.nextId, st.nextTrace)]
        else st.ctxStacks c1) := he1
    have he2' : e2 ∈ (if c2 = ctx then [(st.nextId, st.nextTrace)]
        else st.ctxStacks c2) := he2
    clear he1 he2
    rename' he1' => he1, he2' => he2
    by_cases h1 : c1 = ctx <;> by_cases h2 : c2 = ctx
    · rw [h1, h2]
    · rw [if_pos h1] at he1
      rw [if_neg h2] at he2
      rw [List.mem_singleton.mp he1] at heq
      have := stackOK_ids_lt (hinv.stacks_ok c2) hinv.ids_lt e2 he2
      rw [← heq] at this
      exact absurd this (Nat.lt_irrefl _)
    · rw [if_neg h1] at he1
      rw [if_pos h2] at he2
      rw [List.mem_singleton.mp he2] at heq
      have := stackOK_ids_lt (hinv.stacks_ok c1) hinv.ids_lt e1 he1
      rw [heq] at this
      exact absurd this (Nat.lt_irrefl _)
    · rw [if_neg h1] at he1
      rw [if_neg h2] at he2
      exact hinv.stacks_disj c1 c2 e1 e2 he1 he2 heq
  · intro s hs hrun
    rcases List.mem_append.mp hs with hs | hs
    · obtain ⟨c0, tid, hmem⟩ := hinv.running_on_stack s hs hrun
      refine ⟨c0, tid, ?_⟩
      by_cases hc0 : c0 = ctx
      · rw [hc0, hstk] at hmem
        cases hmem
      · simpa [if_neg hc0] using hmem
    · refine ⟨ctx, st.nextTrace, ?_⟩
      rw [List.mem_singleton.mp hs, hid]
      simp
  · intro c hc p hp ps hps hpid tp htp tc htc
    rcases List.mem_append.mp hc with hc | hc
    · rcases List.mem_append.mp hps with hps | hps
      · exact hinv.parent_end c hc p hp ps hps hpid tp htp tc htc
      · rw [List.mem_singleton.mp hps, hend] at htp
        cases htp
    · rw [List.mem_singleton.mp hc, hend] at htc
      cases htc

theorem inv_enter_cons {st : TraceState} {ctx : Nat} {nm : String}
    {p ptid : Nat} {rest : List (Nat × Nat)}
    (hinv : Inv st) (hstk : st.ctxStacks ctx = (p, ptid) :: rest) :
    Inv (step st (Op.enter ctx nm)) := by
  have hstep : step st (Op.enter ctx nm) =
      { spans := st.spans ++ [Span.create nm (some p) ptid st.nextId st.clock],
        ctxStacks := fun c =>
          if c = ctx then (st.nextId, ptid) :: (p, ptid) :: rest
          else st.ctxStacks c,
        nextId := st.nextId + 1, nextTrace := st.nextTrace,
        clock := st.clock + 1 } := by
    simp only [step, hstk]
  rw [hstep]
  set sp := Span.create nm (some p) ptid st.nextId st.clock with hsp
  have hspfields : sp.id = st.nextId ∧ sp.trace_id = ptid ∧
      sp.parent_id = some p ∧ sp.start_time = st.clock ∧
      sp.end_time = none ∧ sp.status = SpanStatus.RUNNING := by
    simp [hsp, Span.create]
  obtain ⟨hid, htid, hpar, hstart, hend, hstat⟩ := hspfields
  have hstack0 := hinv.stacks_ok ctx
  rw [hstk] at hstack0
  obtain ⟨⟨ps, hps, hpsid, hpstid, hpsrun, hpspar⟩, hplt, hrest⟩ := hstack0
  have hstklt : ∀ e ∈ (p, ptid) :: rest, e.1 < st.nextId := by
    have := stackOK_ids_lt (hinv.stacks_ok ctx) hinv.ids_lt
    rw [hstk] at this
    exact this
  refine
    { ids_lt := ?_, ids_nodup := ?_, trace_lt := ?_, parent_ok := ?_,
      root_unique := ?_, start_lt := ?_, end_ok := ?_, status_end := ?_,
      stacks_ok := ?_, stacks_disj := ?_, running_on_stack := ?_,
      parent_end := ?_ }
  · intro s hs
    rcases List.mem_append.mp hs with hs | hs
    · exact Nat.lt_succ_of_lt (hinv.ids_lt s hs)
    · rw [List.mem_singleton.mp hs, hid]
      exact Nat.lt_succ_self _
  · rw [List.map_append]
    apply List.Nodup.append hinv.ids_nodup (by simp)
    intro a ha hb
    simp only [List.map_cons, List.map_nil, List.mem_singleton] at hb
    rw [hb, hid] at ha
    obtain ⟨s, hsmem, hsid⟩ := List.mem_map.mp ha
    exact absurd hsid (Nat.ne_of_lt (hinv.ids_lt s hsmem))
  · intro s hs
    rcases List.mem_append.mp hs with hs | hs
    · exact hinv.trace_lt s hs
    · rw [List.mem_singleton.mp hs, htid, ← hpstid]
      exact hinv.trace_lt ps hps
  · intro s hs q hq
    rcases List.mem_append.mp hs with hs | hs
    · obtain ⟨t, htmem, htprops⟩ := hinv.parent_ok s hs q hq
      exact ⟨t, List.mem_append_left _ htmem, htprops⟩
    · rw [List.mem_singleton.mp hs] at hq ⊢
      rw [hpar] at hq
      obtain rfl : p = q := Option.some.injEq .. ▸ hq
      refine ⟨ps, List.mem_append_left _ hps, hpsid, ?_, ?_⟩
      · rw [hpstid, htid]
      · rw [hid, ← hpsid]
        exact hinv.ids_lt ps hps
  · intro s hs
    have hother : ∀ tid, rootCount (st.spans ++ [sp]) tid = rootCount st.spans tid := by
      intro tid
      apply rootCount_append_other
      intro ⟨_, h2⟩
      rw [hpar] at h2
      cases h2
    rcases List.mem_append.mp hs with hs | hs
    · rw [hother]
      exact hinv.root_unique s hs
    · rw [List.mem_singleton.mp hs, hother, htid, ← hpstid]
      exact hinv.root_unique ps hps
  · intro s hs
    rcases List.mem_append.mp hs with hs | hs
    · exact Nat.lt_succ_of_lt (hinv.start_lt s hs)
    · rw [List.mem_singleton.mp hs, hstart]
      exact Nat.lt_succ_self _
  · intro s hs t ht
    rcases List.mem_append.mp hs with hs | hs
    · obtain ⟨h1, h2⟩ := hinv.end_ok s hs t ht
      exact ⟨h1, Nat.lt_succ_of_lt h2⟩
    · rw [List.mem_singleton.mp hs, hend] at ht
      cases ht
  · intro s hs
    rcases List.mem_append.mp hs with hs | hs
    · exact hinv.status_end s hs
    · rw [List.mem_singleton.mp hs, hstat, hend]
      simp
  · intro c
    by_cases hc : c = ctx
    · simp only [hc, if_pos rfl]
      refine ⟨⟨sp, List.mem_append_right _ (List.mem_singleton_self _),
        hid, htid, hstat, by simp [hpar]⟩, hstklt, ?_⟩
      exact stackOK_append (hstk ▸ hinv.stacks_ok ctx)
    · simp only [if_neg hc]
      exact stackOK_append (hinv.stacks_ok c)
  · intro c1 c2 e1 e2 he1 he2 heq
    have he1' : e1 ∈ (if c1 = ctx then (st.nextId, ptid) :: (p, ptid) :: rest
        else st.ctxStacks c1) := he1
    have he2' : e2 ∈ (if c2 = ctx then (st.nextId, ptid) :: (p, ptid) :: rest
        else st.ctxStacks c2) := he2
    clear he1 he2
    rename' he1' => he1, he2' => he2
    by_cases h1 : c1 = ctx <;> by_cases h2 : c2 = ctx
    · rw [h1, h2]
    · rw [if_pos h1] at he1
      rw [if_neg h2] at he2
      have he2lt := stackOK_ids_lt (hinv.stacks_ok c2) hinv.ids_lt e2 he2
      rcases List.mem_cons.mp he1 with heq1 | he1m

      · rw [heq1] at heq
        simp only at heq
        rw [← heq] at he2lt
        exact absurd he2lt (Nat.lt_irrefl _)
      · rw [h1]
        exact hinv.stacks_disj ctx c2 e1 e2 (hstk ▸ he1m) he2 heq
    · rw [if_neg h1] at he1
      rw [if_pos h2] at he2
      have he1lt := stackOK_ids_lt (hinv.stacks_ok c1) hinv.ids_lt e1 he1
      rcases List.mem_cons.mp he2 with heq2 | he2m
      · rw [heq2] at heq
        simp only at heq
        rw [heq] at he1lt
        exact absurd he1lt (Nat.lt_irrefl _)
      · rw [h2]
        exact hinv.stacks_disj c1 ctx e1 e2 he1 (hstk ▸ he2m) heq
    · rw [if_neg h1] at he1
      rw [if_neg h2] at he2
      exact hinv.stacks_disj c1 c2 e1 e2 he1 he2 heq
  · intro s hs hrun
    rcases List.mem_append.mp hs with hs | hs
    · obtain ⟨c0, tid, hmem⟩ := hinv.running_on_stack s hs hrun
      refine ⟨c0, tid, ?_⟩
      by_cases hc0 : c0 = ctx
      · rw [hc0] at hmem ⊢
        rw [hstk] at hmem
        show (s.id, tid) ∈ (if ctx = ctx then (st.nextId, ptid) :: (p, ptid) :: rest
          else st.ctxStacks ctx)
        rw [if_pos rfl]
        exact List.mem_cons_of_mem _ hmem
      · show (s.id, tid) ∈ (if c0 = ctx then (st.nextId, ptid) :: (p, ptid) :: rest
          else st.ctxStacks c0)
        rw [if_neg hc0]
        exact hmem
    · refine ⟨ctx, ptid, ?_⟩
      rw [List.mem_singleton.mp hs, hid]
      show (st.nextId, ptid) ∈ (if ctx = ctx then (st.nextId, ptid) :: (p, ptid) :: rest
        else st.ctxStacks ctx)
      rw [if_pos rfl]
      exact List.mem_cons_self _ _
  · intro c hc q hq qs hqs hqid tp htp tc htc
    rcases List.mem_append.mp hc with hc | hc
    · rcases List.mem_append.mp hqs with hqs | hqs
      · exact hinv.parent_end c hc q hq qs hqs hqid tp htp tc htc
      · rw [List.mem_singleton.mp hqs, hend] at htp
        cases htp
    · rw [List.mem_singleton.mp hc, hend] at htc
      cases htc

/-- The top of a context stack has no `RUNNING` children: children are
closed (popped) before their parent. -/
theorem no_running_child_of_top {st : TraceState} (hinv : Inv st)
    {ctx i tid : Nat} {rest : List (Nat × Nat)}
    (hstk : st.ctxStacks ctx = (i, tid) :: rest) :
    ∀ c ∈ st.spans, c.parent_id = some i →
      c.status ≠ SpanStatus.RUNNING := by
  intro c hc hpar hrun
  obtain ⟨t, _, _, _, hilt⟩ := hinv.parent_ok c hc i hpar
  obtain ⟨c0, tidc, hmem⟩ := hinv.running_on_stack c hc hrun
  obtain ⟨rc, hsub, _, s, hsmem, hsid, _, _, hspar⟩ :=
    stackOK_mem (hinv.stacks_ok c0) hmem
  have hsc : s = c := span_eq_of_id hinv.ids_nodup hsmem hc hsid
  rw [hsc, hpar] at hspar
  cases hrc : rc with
  | nil => rw [hrc] at hspar; simp at hspar
  | cons e rc' =>
      rw [hrc] at hspar
      simp only [List.head?_cons, Option.map_some'] at hspar
      have hei : e.1 = i := (Option.some.injEq .. ▸ hspar).symm
      have hemem : e ∈ st.ctxStacks c0 := by
        apply hsub
        rw [hrc]
        exact List.mem_cons_self _ _
      have hc0ctx : c0 = ctx := by
        apply hinv.stacks_disj c0 ctx e (i, tid) hemem
        · rw [hstk]
          exact List.mem_cons_self _ _
        · exact hei
      subst hc0ctx
      rw [hstk] at hmem
      have hstax := hinv.stacks_ok c0
      rw [hstk] at hstax
      obtain ⟨_, hreslt, _⟩ := hstax
      rcases List.mem_cons.mp hmem with heq | hmemr
      · have : c.id = i := by
          have := Prod.mk.injEq .. ▸ heq
          exact this.1
        rw [this] at hilt
        exact absurd hilt (Nat.lt_irrefl _)
      · have : c.id < i := hreslt _ hmemr
        omega

theorem inv_exit_general {st : TraceState} {ctx i tid : Nat}
    {rest : List (Nat × Nat)} (f : Span → Span)
    (hinv : Inv st) (hstk : st.ctxStacks ctx = (i, tid) :: rest)
    (hf_id : ∀ s, (f s).id = s.id)
    (hf_tr : ∀ s, (f s).trace_id = s.trace_id)
    (hf_par : ∀ s, (f s).parent_id = s.parent_id)
    (hf_start : ∀ s, (f s).start_time = s.start_time)
    (hf_closed : ∀ s, s.status ≠ SpanStatus.RUNNING → f s = s)
    (hf_run : ∀ s, s.status = SpanStatus.RUNNING →
      (f s).status ≠ SpanStatus.RUNNING ∧ (f s).end_time = some st.clock) :
    Inv { spans := updateSpan st.spans i f,
          ctxStacks := fun c => if c = ctx then rest else st.ctxStacks c,
          nextId := st.nextId, nextTrace := st.nextTrace,
          clock := st.clock + 1 } := by
  have hgid : ∀ s : Span, ((fun s => if s.id = i then f s else s) s).id = s.id := by
    intro s
    by_cases h : s.id = i <;> simp [h, hf_id]
  have hstax := hinv.stacks_ok ctx
  rw [hstk] at hstax
  obtain ⟨⟨si, hsi, hsiid, hsitid, hsirun, hsipar⟩, hreslt, hrestok⟩ := hstax
  have htopmem : (i, tid) ∈ st.ctxStacks ctx := by
    rw [hstk]
    exact List.mem_cons_self _ _
  have hchar : ∀ s' ∈ updateSpan st.spans i f, ∃ s ∈ st.spans,
      s'.id = s.id ∧ s'.trace_id = s.trace_id ∧
      s'.parent_id = s.parent_id ∧ s'.start_time = s.start_time ∧
      (s'.end_time = s.end_time ∨
        (s.status = SpanStatus.RUNNING ∧ s.id = i ∧
          s'.end_time = some st.clock)) := by
    intro s' hs'
    obtain ⟨s, hs, hcase⟩ := mem_updateSpan hs'
    rcases hcase with ⟨hne, heqs⟩ | ⟨heq, heqs⟩
    · exact ⟨s, hs, by rw [heqs], by rw [heqs], by rw [heqs], by rw [heqs],
        Or.inl (by rw [heqs])⟩
    · by_cases hrun : s.status = SpanStatus.RUNNING
      · exact ⟨s, hs, by rw [heqs, hf_id], by rw [heqs, hf_tr],
          by rw [heqs, hf_par], by rw [heqs, hf_start],
          Or.inr ⟨hrun, heq, by rw [heqs]; exact (hf_run s hrun).2⟩⟩
      · rw [hf_closed s hrun] at heqs
        exact ⟨s, hs, by rw [heqs], by rw [heqs], by rw [heqs], by rw [heqs],
          Or.inl (by rw [heqs])⟩
  refine
    { ids_lt := ?_, ids_nodup := ?_, trace_lt := ?_, parent_ok := ?_,
      root_unique := ?_, start_lt := ?_, end_ok := ?_, status_end := ?_,
      stacks_ok := ?_, stacks_disj := ?_, running_on_stack := ?_,
      parent_end := ?_ }
  · intro s' hs'
    obtain ⟨s, hs, hid, _⟩ := hchar s' hs'
    rw [hid]
    exact hinv.ids_lt s hs
  · show ((updateSpan st.spans i f).map Span.id).Nodup
    unfold updateSpan
    rw [map_ids_eq st.spans _ hgid]
    exact hinv.ids_nodup
  · intro s' hs'
    obtain ⟨s, hs, _, htr, _⟩ := hchar s' hs'
    rw [htr]
    exact hinv.trace_lt s hs
  · intro s' hs' q hq
    obtain ⟨s, hs, hid, htr, hpar, _⟩ := hchar s' hs'
    rw [hpar] at hq
    obtain ⟨t, ht, htid', httr, hlt⟩ := hinv.parent_ok s hs q hq
    refine ⟨if t.id = i then f t else t, updateSpan_mem_of_mem i f ht, ?_, ?_, ?_⟩
    · by_cases hcase : t.id = i
      · rw [if_pos hcase, hf_id, htid']
      · rw [if_neg hcase, htid']
    · by_cases hcase : t.id = i
      · rw [if_pos hcase, hf_tr, httr, htr]
      · rw [if_neg hcase, httr, htr]
    · rw [hid]
      exact hlt
  · intro s' hs'
    obtain ⟨s, hs, _, htr, _⟩ := hchar s' hs'
    have hrc : ∀ tidq, rootCount (updateSpan st.spans i f) tidq =
        rootCount st.spans tidq := by
      intro tidq
      unfold updateSpan
      apply rootCount_map
      intro s0
      by_cases hcase : s0.id = i <;> simp [hcase, hf_tr, hf_par]
    rw [htr, hrc]
    exact hinv.root_unique s hs
  · intro s' hs'
    obtain ⟨s, hs, _, _, _, hstart, _⟩ := hchar s' hs'
    rw [hstart]
    exact Nat.lt_succ_of_lt (hinv.start_lt s hs)
  · intro s' hs' t ht
    obtain ⟨s, hs, _, _, _, hstart, hend⟩ := hchar s' hs'
    rcases hend with hend | ⟨hrun, _, hend⟩
    · rw [hend] at ht
      obtain ⟨h1, h2⟩ := hinv.end_ok s hs t ht
      rw [hstart]
      exact ⟨h1, Nat.lt_succ_of_lt h2⟩
    · rw [hend] at ht
      obtain rfl : st.clock = t := Option.some.injEq .. ▸ ht
      rw [hstart]
      exact ⟨Nat.le_of_lt (hinv.start_lt s hs), Nat.lt_succ_self _⟩
  · intro s' hs'
    obtain ⟨s, hs, hcase⟩ := mem_updateSpan hs'
    rcases hcase with ⟨_, heqs⟩ | ⟨heq, heqs⟩
    · rw [heqs]
      exact hinv.status_end s hs
    · by_cases hrun : s.status = SpanStatus.RUNNING
      · obtain ⟨h1, h2⟩ := hf_run s hrun
        rw [heqs]
        constructor
        · intro hcontra
          exact absurd hcontra h1
        · intro hcontra
          rw [h2] at hcontra
          cases hcontra
      · rw [hf_closed s hrun] at heqs
        rw [heqs]
        exact hinv.status_end s hs
  · intro c
    by_cases hc : c = ctx
    · show StackOK (updateSpan st.spans i f)
        (if c = ctx then rest else st.ctxStacks c)
      rw [if_pos hc]
      apply stackOK_update_notin f hrestok
      intro e he
      exact Nat.ne_of_lt (hreslt e he)
    · show StackOK (updateSpan st.spans i f)
        (if c = ctx then rest else st.ctxStacks c)
      rw [if_neg hc]
      apply stackOK_update_notin f (hinv.stacks_ok c)
      intro e he heq
      exact hc (hinv.stacks_disj c ctx e (i, tid) he htopmem heq)
  · intro c1 c2 e1 e2 he1 he2 heq
    have he1' : e1 ∈ (if c1 = ctx then rest else st.ctxStacks c1) := he1
    have he2' : e2 ∈ (if c2 = ctx then rest else st.ctxStacks c2) := he2
    have hm1 : e1 ∈ st.ctxStacks c1 := by
      by_cases h1 : c1 = ctx
      · rw [if_pos h1] at he1'
        rw [h1, hstk]
        exact List.mem_cons_of_mem _ he1'
      · rwa [if_neg h1] at he1'
    have hm2 : e2 ∈ st.ctxStacks c2 := by
      by_cases h2 : c2 = ctx
      · rw [if_pos h2] at he2'
        rw [h2, hstk]
        exact List.mem_cons_of_mem _ he2'
      · rwa [if_neg h2] at he2'
    exact hinv.stacks_disj c1 c2 e1 e2 hm1 hm2 heq
  · intro s' hs' hrun'
    obtain ⟨s, hs, hcase⟩ := mem_updateSpan hs'
    rcases hcase with ⟨hne, heqs⟩ | ⟨heq, heqs⟩
    · rw [heqs] at hrun' ⊢
      obtain ⟨c0, t0, hmem⟩ := hinv.running_on_stack s hs hrun'
      refine ⟨c0, t0, ?_⟩
      show (s.id, t0) ∈ (if c0 = ctx then rest else st.ctxStacks c0)
      by_cases hc0 : c0 = ctx
      · rw [if_pos hc0]
        rw [hc0, hstk] at hmem
        rcases List.mem_cons.mp hmem with hh | hh
        · exact absurd (Prod.mk.injEq .. ▸ hh).1 hne
        · exact hh
      · rw [if_neg hc0]
        exact hmem
    · rw [heqs] at hrun'
      by_cases hrun : s.status = SpanStatus.RUNNING
      · exact absurd hrun' (hf_run s hrun).1
      · rw [hf_closed s hrun] at hrun'
        exact absurd hrun' hrun
  · intro c' hc' q hq qs' hqs' hqid tp htp tc htc
    obtain ⟨c0, hc0, hcid, _, hcpar, _, hcend⟩ := hchar c' hc'
    obtain ⟨q0, hq0, hqsid, _, _, _, hqend⟩ := hchar qs' hqs'
    rw [hcpar] at hq
    rw [hqid] at hqsid
    rcases hcend with hce | ⟨hcrun, _, hce⟩ <;>
      rcases hqend with hqe | ⟨_, _, hqe⟩
    · rw [hce] at htc
      rw [hqe] at htp
      exact hinv.parent_end c0 hc0 q hq q0 hq0 hqsid.symm tp htp tc htc
    · rw [hce] at htc
      rw [hqe] at htp
      obtain rfl : st.clock = tp := Option.some.injEq .. ▸ htp
      exact Nat.le_of_lt (hinv.end_ok c0 hc0 tc htc).2
    · rw [hqe] at htp
      obtain ⟨ps, hpsmem, hpsid, hpsrun⟩ :=
        running_parent_running hinv hc0 hcrun hq
      have hpsq0 : ps = q0 :=
        span_eq_of_id hinv.ids_nodup hpsmem hq0 (by rw [hpsid, hqsid])
      rw [hpsq0] at hpsrun
      rw [(hinv.status_end q0 hq0).mp hpsrun] at htp
      cases htp
    · rw [hce] at htc
      rw [hqe] at htp
      have h1 : st.clock = tc := Option.some.injEq .. ▸ htc
      have h2 : st.clock = tp := Option.some.injEq .. ▸ htp
      omega

theorem inv_clock_bump {st : TraceState} (hinv : Inv st) :
    Inv { st with clock := st.clock + 1 } := by
  refine
    { ids_lt := hinv.ids_lt, ids_nodup := hinv.ids_nodup,
      trace_lt := hinv.trace_lt, parent_ok := hinv.parent_ok,
      root_unique := hinv.root_unique, start_lt := ?_, end_ok := ?_,
      status_end := hinv.status_end, stacks_ok := hinv.stacks_ok,
      stacks_disj := hinv.stacks_disj,
      running_on_stack := hinv.running_on_stack,
      parent_end := hinv.parent_end }
  · intro s hs
    exact Nat.lt_succ_of_lt (hinv.start_lt s hs)
  · intro s hs t ht
    obtain ⟨h1, h2⟩ := hinv.end_ok s hs t ht
    exact ⟨h1, Nat.lt_succ_of_lt h2⟩

theorem inv_logp_cons {st : TraceState} {ctx i tid : Nat}
    {rest : List (Nat × Nat)} {payload : String}
    (hinv : Inv st) (_hstk : st.ctxStacks ctx = (i, tid) :: rest) :
    Inv { st with
          spans := updateSpan st.spans i
            (fun s => appendLogOr s payload st.clock),
          clock := st.clock + 1 } := by
  have hchar : ∀ s' ∈ updateSpan st.spans i
      (fun s => appendLogOr s payload st.clock), ∃ s ∈ st.spans,
      s'.id = s.id ∧ s'.trace_id = s.trace_id ∧
      s'.parent_id = s.parent_id ∧ s'.start_time = s.start_time ∧
      s'.end_time = s.end_time ∧ s'.status = s.status := by
    intro s' hs'
    obtain ⟨s, hs, hcase⟩ := mem_updateSpan hs'
    rcases hcase with ⟨_, heqs⟩ | ⟨_, heqs⟩
    · exact ⟨s, hs, by rw [heqs], by rw [heqs], by rw [heqs], by rw [heqs],
        by rw [heqs], by rw [heqs]⟩
    · exact ⟨s, hs, by rw [heqs]; exact appendLogOr_id s payload st.clock,
        by rw [heqs]; exact appendLogOr_trace s payload st.clock,
        by rw [heqs]; exact appendLogOr_parent s payload st.clock,
        by rw [heqs]; exact appendLogOr_start s payload st.clock,
        by rw [heqs]; exact appendLogOr_end s payload st.clock,
        by rw [heqs]; exact appendLogOr_status s payload st.clock⟩
  refine
    { ids_lt := ?_, ids_nodup := ?_, trace_lt := ?_, parent_ok := ?_,
      root_unique := ?_, start_lt := ?_, end_ok := ?_, status_end := ?_,
      stacks_ok := ?_, stacks_disj := hinv.stacks_disj,
      running_on_stack := ?_, parent_end := ?_ }
  · intro s' hs'
    obtain ⟨s, hs, hid, _⟩ := hchar s' hs'
    rw [hid]
    exact hinv.ids_lt s hs
  · show ((updateSpan st.spans i _).map Span.id).Nodup
    unfold updateSpan
    rw [map_ids_eq]
    · exact hinv.ids_nodup
    · intro s
      by_cases h : s.id = i <;> simp [h, appendLogOr_id]
  · intro s' hs'
    obtain ⟨s, hs, _, htr, _⟩ := hchar s' hs'
    rw [htr]
    exact hinv.trace_lt s hs
  · intro s' hs' q hq
    obtain ⟨s, hs, hid, htr, hpar, _⟩ := hchar s' hs'
    rw [hpar] at hq
    obtain ⟨t, ht, htid', httr, hlt⟩ := hinv.parent_ok s hs q hq
    refine ⟨if t.id = i then appendLogOr t payload st.clock else t,
      updateSpan_mem_of_mem i _ ht, ?_, ?_, ?_⟩
    · by_cases hcase : t.id = i
      · rw [if_pos hcase, appendLogOr_id, htid']
      · rw [if_neg hcase, htid']
    · by_cases hcase : t.id = i
      · rw [if_pos hcase, appendLogOr_trace, httr, htr]
      · rw [if_neg hcase, httr, htr]
    · rw [hid]
      exact hlt
  · intro s' hs'
    obtain ⟨s, hs, _, htr, _⟩ := hchar s' hs'
    have hrc : rootCount (updateSpan st.spans i
        (fun s => appendLogOr s payload st.clock)) s.trace_id =
        rootCount st.spans s.trace_id := by
      unfold updateSpan
      apply rootCount_map
      intro s0
      by_cases hcase : s0.id = i <;>
        simp [hcase, appendLogOr_trace, appendLogOr_parent]
    rw [htr, hrc]
    exact hinv.root_unique s hs
  · intro s' hs'
    obtain ⟨s, hs, _, _, _, hstart, _⟩ := hchar s' hs'
    rw [hstart]
    exact Nat.lt_succ_of_lt (hinv.start_lt s hs)
  · intro s' hs' t ht
    obtain ⟨s, hs, _, _, _, hstart, hend, _⟩ := hchar s' hs'
    rw [hend] at ht
    obtain ⟨h1, h2⟩ := hinv.end_ok s hs t ht
    rw [hstart]
    exact ⟨h1, Nat.lt_succ_of_lt h2⟩
  · intro s' hs'
    obtain ⟨s, hs, _, _, _, _, hend, hstat⟩ := hchar s' hs'
    rw [hend, hstat]
    exact hinv.status_end s hs
  · intro c
    show StackOK (updateSpan st.spans i _) (st.ctxStacks c)
    apply stackOK_update_keep
    · intro s
      exact ⟨appendLogOr_id s payload st.clock,
        appendLogOr_trace s payload st.clock,
        appendLogOr_status s payload st.clock,
        appendLogOr_parent s payload st.clock⟩
    · exact hinv.stacks_ok c
  · intro s' hs' hrun
    obtain ⟨s, hs, hid, _, _, _, _, hstat⟩ := hchar s' hs'
    rw [hstat] at hrun
    obtain ⟨c0, t0, hmem⟩ := hinv.running_on_stack s hs hrun
    exact ⟨c0, t0, hid ▸ hmem⟩
  · intro c' hc' q hq qs' hqs' hqid tp htp tc htc
    obtain ⟨c0, hc0, _, _, hcpar, _, hcend, _⟩ := hchar c' hc'
    obtain ⟨q0, hq0, hqsid, _, _, _, hqend, _⟩ := hchar qs' hqs'
    rw [hcpar] at hq
    rw [hqid] at hqsid
    rw [hcend] at htc
    rw [hqend] at htp
    exact hinv.parent_end c0 hc0 q hq q0 hq0 hqsid.symm tp htp tc htc

theorem inv_shutdown {st : TraceState} (hinv : Inv st) :
    Inv (step st Op.shutdown) := by
  have hstep : step st Op.shutdown =
      { st with
        spans := st.spans.map (fun s => closeOr s ClosedStatus.aborted st.clock),
        ctxStacks := fun _ => [],
        clock := st.clock + 1 } := by
    simp only [step]
  rw [hstep]
  have hchar : ∀ s' ∈ st.spans.map
      (fun s => closeOr s ClosedStatus.aborted st.clock), ∃ s ∈ st.spans,
      s' = closeOr s ClosedStatus.aborted st.clock := by
    intro s' hs'
    obtain ⟨s, hs, heq⟩ := List.mem_map.mp hs'
    exact ⟨s, hs, heq.symm⟩
  have hfields : ∀ s : Span,
      (closeOr s ClosedStatus.aborted st.clock).id = s.id ∧
      (closeOr s ClosedStatus.aborted st.clock).trace_id = s.trace_id ∧
      (closeOr s ClosedStatus.aborted st.clock).parent_id = s.parent_id ∧
      (closeOr s ClosedStatus.aborted st.clock).start_time = s.start_time := by
    intro s
    exact ⟨closeOr_id s _ _, closeOr_trace s _ _, closeOr_parent s _ _,
      closeOr_start s _ _⟩
  have hclosed : ∀ s : Span,
      (closeOr s ClosedStatus.aborted st.clock).status ≠ SpanStatus.RUNNING := by
    intro s
    by_cases hrun : s.status = SpanStatus.RUNNING
    · rw [closeOr_of_running _ _ hrun]
      show ClosedStatus.aborted.toStatus ≠ SpanStatus.RUNNING
      exact ClosedStatus.toStatus_ne_running ClosedStatus.aborted
    · rw [closeOr_of_closed _ _ hrun]
      exact hrun
  have hendchar : ∀ s : Span,
      ((closeOr s ClosedStatus.aborted st.clock).end_time = s.end_time ∧
        s.status ≠ SpanStatus.RUNNING) ∨
      (s.status = SpanStatus.RUNNING ∧
        (closeOr s ClosedStatus.aborted st.clock).end_time = some st.clock) := by
    intro s
    by_cases hrun : s.status = SpanStatus.RUNNING
    · right
      rw [closeOr_of_running _ _ hrun]
      exact ⟨hrun, rfl⟩
    · left
      rw [closeOr_of_closed _ _ hrun]
      exact ⟨rfl, hrun⟩
  refine
    { ids_lt := ?_, ids_nodup := ?_, trace_lt := ?_, parent_ok := ?_,
      root_unique := ?_, start_lt := ?_, end_ok := ?_, status_end := ?_,
      stacks_ok := ?_, stacks_disj := ?_, running_on_stack := ?_,
      parent_end := ?_ }
  · intro s' hs'
    obtain ⟨s, hs, heq⟩ := hchar s' hs'
    rw [heq, (hfields s).1]
    exact hinv.ids_lt s hs
  · show ((st.spans.map _).map Span.id).Nodup
    rw [map_ids_eq]
    · exact hinv.ids_nodup
    · intro s
      exact (hfields s).1
  · intro s' hs'
    obtain ⟨s, hs, heq⟩ := hchar s' hs'
    rw [heq, (hfields s).2.1]
    exact hinv.trace_lt s hs
  · intro s' hs' q hq
    obtain ⟨s, hs, heq⟩ := hchar s' hs'
    rw [heq, (hfields s).2.2.1] at hq
    obtain ⟨t, ht, htid', httr, hlt⟩ := hinv.parent_ok s hs q hq
    refine ⟨closeOr t ClosedStatus.aborted st.clock,
      List.mem_map_of_mem _ ht, ?_, ?_, ?_⟩
    · rw [(hfields t).1, htid']
    · rw [(hfields t).2.1, httr, heq, (hfields s).2.1]
    · rw [heq, (hfields s).1]
      exact hlt
  · intro s' hs'
    obtain ⟨s, hs, heq⟩ := hchar s' hs'
    have hrc : rootCount (st.spans.map
        (fun s => closeOr s ClosedStatus.aborted st.clock)) s.trace_id =
        rootCount st.spans s.trace_id := by
      apply rootCount_map
      intro s0
      exact ⟨(hfields s0).2.1, (hfields s0).2.2.1⟩
    rw [heq, (hfields s).2.1, hrc]
    exact hinv.root_unique s hs
  · intro s' hs'
    obtain ⟨s, hs, heq⟩ := hchar s' hs'
    rw [heq, (hfields s).2.2.2]
    exact Nat.lt_succ_of_lt (hinv.start_lt s hs)
  · intro s' hs' t ht
    obtain ⟨s, hs, heq⟩ := hchar s' hs'
    rw [heq] at ht
    rcases hendchar s with ⟨hend, _⟩ | ⟨hrun, hend⟩
    · rw [hend] at ht
      obtain ⟨h1, h2⟩ := hinv.end_ok s hs t ht
      rw [heq, (hfields s).2.2.2]
      exact ⟨h1, Nat.lt_succ_of_lt h2⟩
    · rw [hend] at ht
      obtain rfl : st.clock = t := Option.some.injEq .. ▸ ht
      rw [heq, (hfields s).2.2.2]
      exact ⟨Nat.le_of_lt (hinv.start_lt s hs), Nat.lt_succ_self _⟩
  · intro s' hs'
    obtain ⟨s, hs, heq⟩ := hchar s' hs'
    constructor
    · intro hcontra
      rw [heq] at hcontra
      exact absurd hcontra (hclosed s)
    · intro hcontra
      rw [heq] at hcontra
      rcases hendchar s with ⟨hend, hnr⟩ | ⟨hrun, hend⟩
      · rw [hend] at hcontra
        exact absurd ((hinv.status_end s hs).mpr hcontra) hnr
      · rw [hend] at hcontra
        cases hcontra
  · intro c
    trivial
  · intro c1 c2 e1 e2 he1 he2 heq
    cases he1
  · intro s' hs' hrun
    obtain ⟨s, hs, heq⟩ := hchar s' hs'
    rw [heq] at hrun
    exact absurd hrun (hclosed s)
  · intro c' hc' q hq qs' hqs' hqid tp htp tc htc
    obtain ⟨c0, hc0, hceq⟩ := hchar c' hc'
    obtain ⟨q0, hq0, hqeq⟩ := hchar qs' hqs'
    rw [hceq, (hfields c0).2.2.1] at hq
    rw [hqeq, (hfields q0).1] at hqid
    rw [hceq] at htc
    rw [hqeq] at htp
    rcases hendchar c0 with ⟨hcend, _⟩ | ⟨hcrun, hcend⟩ <;>
      rcases hendchar q0 with ⟨hqend, _⟩ | ⟨hqrun, hqend⟩
    · rw [hcend] at htc
      rw [hqend] at htp
      exact hinv.parent_end c0 hc0 q hq q0 hq0 hqid tp htp tc htc
    · rw [hcend] at htc
      rw [hqend] at htp
      have h2 : st.clock = tp := Option.some.injEq .. ▸ htp
      have h3 := (hinv.end_ok c0 hc0 tc htc).2
      omega
    · rw [hcend] at htc
      obtain ⟨ps, hpsmem, hpsid, hpsrun⟩ :=
        running_parent_running hinv hc0 hcrun hq
      have hpsq0 : ps = q0 :=
        span_eq_of_id hinv.ids_nodup hpsmem hq0 (by rw [hpsid, hqid])
      rw [hpsq0] at hpsrun
      rcases hendchar q0 with ⟨_, hnr⟩ | ⟨_, hqend⟩
      · exact absurd hpsrun hnr
      · rw [hqend] at htp
        have h1 : st.clock = tc := Option.some.injEq .. ▸ htc
        have h2 : st.clock = tp := Option.some.injEq .. ▸ htp
        omega
    · rw [hcend] at htc
      rw [hqend] at htp
      have h1 : st.clock = tc := Option.some.injEq .. ▸ htc
      have h2 : st.clock = tp := Option.some.injEq .. ▸ htp
      omega

theorem inv_init : Inv initState := by
  refine
    { ids_lt := ?_, ids_nodup := ?_, trace_lt := ?_, parent_ok := ?_,
      root_unique := ?_, start_lt := ?_, end_ok := ?_, status_end := ?_,
      stacks_ok := ?_, stacks_disj := ?_, running_on_stack := ?_,
      parent_end := ?_ } <;>
    simp [initState, StackOK]

theorem inv_step {st : TraceState} (hinv : Inv st) (op : Op) :
    Inv (step st op) := by
  cases op with
  | enter ctx nm =>
      cases hstk : st.ctxStacks ctx with
      | nil => exact inv_enter_nil hinv hstk
      | cons e rest =>
          obtain ⟨p, ptid⟩ := e
          exact inv_enter_cons hinv hstk
  | exitOk ctx =>
      cases hstk : st.ctxStacks ctx with
      | nil =>
          have hstep : step st (Op.exitOk ctx) =
              { st with clock := st.clock + 1 } := by
            simp only [step, hstk]
          rw [hstep]
          exact inv_clock_bump hinv
      | cons e rest =>
          obtain ⟨i, tid⟩ := e
          have hstep : step st (Op.exitOk ctx) =
              { st with
                spans := updateSpan st.spans i
                  (fun s => closeOr s ClosedStatus.completed st.clock),
                ctxStacks := fun c => if c = ctx then rest else st.ctxStacks c,
                clock := st.clock + 1 } := by
            simp only [step, hstk]
          rw [hstep]
          exact inv_exit_general _ hinv hstk
            (fun s => closeOr_id s _ _) (fun s => closeOr_trace s _ _)
            (fun s => closeOr_parent s _ _) (fun s => closeOr_start s _ _)
            (fun s hns => closeOr_of_closed _ _ hns)
            (fun s hrun => by
              rw [closeOr_of_running _ _ hrun]
              refine ⟨?_, rfl⟩
              show ClosedStatus.completed.toStatus ≠ SpanStatus.RUNNING
              exact ClosedStatus.toStatus_ne_running ClosedStatus.completed)
  | exitErr ctx e =>
      cases hstk : st.ctxStacks ctx with
      | nil =>
          have hstep : step st (Op.exitErr ctx e) =
              { st with clock := st.clock + 1 } := by
            simp only [step, hstk]
          rw [hstep]
          exact inv_clock_bump hinv
      | cons top rest =>
          obtain ⟨i, tid⟩ := top
          have hstep : step st (Op.exitErr ctx e) =
              { st with
                spans := updateSpan st.spans i
                  (fun s =>
                    closeOr (appendLogOr s e st.clock) ClosedStatus.failed st.clock),
                ctxStacks := fun c => if c = ctx then rest else st.ctxStacks c,
                clock := st.clock + 1 } := by
            simp only [step, hstk]
          rw [hstep]
          refine inv_exit_general _ hinv hstk ?_ ?_ ?_ ?_ ?_ ?_
          · intro s
            rw [closeOr_id, appendLogOr_id]
          · intro s
            rw [closeOr_trace, appendLogOr_trace]
          · intro s
            rw [closeOr_parent, appendLogOr_parent]
          · intro s
            rw [closeOr_start, appendLogOr_start]
          · intro s hns
            rw [appendLogOr_of_closed _ _ hns, closeOr_of_closed _ _ hns]
          · intro s hrun
            have hstat : (appendLogOr s e st.clock).status = SpanStatus.RUNNING := by
              rw [appendLogOr_status, hrun]
            rw [closeOr_of_running _ _ hstat]
            refine ⟨?_, rfl⟩
            show ClosedStatus.failed.toStatus ≠ SpanStatus.RUNNING
            exact ClosedStatus.toStatus_ne_running ClosedStatus.failed
  | logp ctx payload =>
      cases hstk : st.ctxStacks ctx with
      | nil =>
          have hstep : step st (Op.logp ctx payload) =
              { st with clock := st.clock + 1 } := by
            simp only [step, hstk]
          rw [hstep]
          exact inv_clock_bump hinv
      | cons top rest =>
          obtain ⟨i, tid⟩ := top
          have hstep : step st (Op.logp ctx payload) =
              { st with
                spans := updateSpan st.spans i
                  (fun s => appendLogOr s payload st.clock),
                clock := st.clock + 1 } := by
            simp only [step, hstk]
          rw [hstep]
          exact inv_logp_cons hinv hstk
  | shutdown => exact inv_shutdown hinv

/-- Every reachable session state satisfies the store invariant. -/
theorem reachable_inv {st : TraceState} (h : Reachable st) : Inv st := by
  induction h with
  | init => exact inv_init
  | next op _ ih => exact inv_step ih op

/-! ## The scoped trace decorator (modelled from the spec, section 4.2) -/

/-- Modelled from the spec: instrumented code as seen by the tracing
API: sequencing, ad-hoc log calls, raising an error, and nested traced
calls (functions wrapped by the `@trace` decorator). -/
inductive Prog : Type where
  | skip : Prog
  | raiseE : String → Prog
  | seq : Prog → Prog → Prog
  | logCall : String → Prog
  | traced : String → Prog → Prog

/-- Modelled from the spec: run a program in an execution context.  A
`traced` call is the scoped handle of the decorator: enter (create and
push the span), run the body, and on every exit path pop and close —
`COMPLETED` on a normal return, `FAILED` after recording the error as a
log entry when an error escapes; the original error is re-raised
unchanged. -/
def exec (ctx : Nat) : Prog → TraceState → TraceState × Option String
  | Prog.skip, st => (st, none)
  | Prog.raiseE e, st => (st, some e)
  | Prog.seq a b, st =>
      match exec ctx a st with
      | (st1, none) => exec ctx b st1
      | (st1, some e) => (st1, some e)
  | Prog.logCall payload, st => (step st (Op.logp ctx payload), none)
  | Prog.traced nm body, st =>
      match exec ctx body (step st (Op.enter ctx nm)) with
      | (st2, none) => (step st2 (Op.exitOk ctx), none)
      | (st2, some e) => (step st2 (Op.exitErr ctx e), some e)

/-- The success/failure outcome of a program, a function of the program
alone. -/
def progResult : Prog → Option String
  | Prog.skip => none
  | Prog.raiseE e => some e
  | Prog.seq a b =>
      match progResult a with
      | none => progResult b
      | some e => some e
  | Prog.logCall _ => none
  | Prog.traced _ body => progResult body

/-- Tracing never changes the success/failure outcome of the
instrumented code: the result of `exec` is a function of the program
alone, independent of the tracing state. -/
theorem exec_result (ctx : Nat) (p : Prog) :
    ∀ st : TraceState, (exec ctx p st).2 = progResult p := by
  induction p with
  | skip => intro st; rfl
  | raiseE e => intro st; rfl
  | seq a b iha ihb =>
      intro st
      simp only [exec, progResult]
      cases hx : exec ctx a st with
      | mk st1 r =>
          have := iha st
          rw [hx] at this
          simp only at this
          rw [← this]
          cases r with
          | none => simpa using ihb st1
          | some e => rfl
  | logCall payload => intro st; rfl
  | traced nm body ih =>
      intro st
      simp only [exec, progResult]
      cases hx : exec ctx body (step st (Op.enter ctx nm)) with
      | mk st2 r =>
          have := ih (step st (Op.enter ctx nm))
          rw [hx] at this
          simp only at this
          rw [← this]
          cases r with
          | none => rfl
          | some e => rfl

theorem step_logp_stacks (st : TraceState) (ctx : Nat) (payload : String) :
    (step st (Op.logp ctx payload)).ctxStacks = st.ctxStacks := by
  cases hstk : st.ctxStacks ctx with
  | nil => simp only [step, hstk]
  | cons top rest =>
      obtain ⟨i, tid⟩ := top
      simp only [step, hstk]

theorem step_enter_spans (st : TraceState) (ctx : Nat) (nm : String) :
    ∃ sp : Span, sp.id = st.nextId ∧ sp.name = nm ∧
      sp.status = SpanStatus.RUNNING ∧ sp.end_time = none ∧
      (step st (Op.enter ctx nm)).spans = st.spans ++ [sp] := by
  cases hstk : st.ctxStacks ctx with
  | nil =>
      refine ⟨Span.create nm none st.nextTrace st.nextId st.clock,
        rfl, rfl, rfl, rfl, ?_⟩
      simp only [step, hstk]
  | cons top rest =>
      obtain ⟨p, ptid⟩ := top
      refine ⟨Span.create nm (some p) ptid st.nextId st.clock,
        rfl, rfl, rfl, rfl, ?_⟩
      simp only [step, hstk]

theorem step_enter_stacks (st : TraceState) (ctx : Nat) (nm : String) :
    ∃ en : Nat × Nat, en.1 = st.nextId ∧
      (step st (Op.enter ctx nm)).ctxStacks = fun c =>
        if c = ctx then en :: st.ctxStacks ctx else st.ctxStacks c := by
  cases hstk : st.ctxStacks ctx with
  | nil =>
      refine ⟨(st.nextId, st.nextTrace), rfl, ?_⟩
      simp only [step, hstk]
  | cons top rest =>
      obtain ⟨p, ptid⟩ := top
      refine ⟨(st.nextId, ptid), rfl, ?_⟩
      simp only [step, hstk]

theorem step_enter_nextId (st : TraceState) (ctx : Nat) (nm : String) :
    (step st (Op.enter ctx nm)).nextId = st.nextId + 1 := by
  cases hstk : st.ctxStacks ctx with
  | nil => simp only [step, hstk]
  | cons top rest =>
      obtain ⟨p, ptid⟩ := top
      simp only [step, hstk]

theorem step_nextId_mono (st : TraceState) (op : Op) :
    st.nextId ≤ (step st op).nextId := by
  cases op with
  | enter ctx nm =>
      rw [step_enter_nextId]
      exact Nat.le_succ _
  | exitOk ctx =>
      cases hstk : st.ctxStacks ctx with
      | nil => simp only [step, hstk]; exact Nat.le_refl _
      | cons top rest =>
          obtain ⟨i, tid⟩ := top
          simp only [step, hstk]
          exact Nat.le_refl _
  | exitErr ctx e =>
      cases hstk : st.ctxStacks ctx with
      | nil => simp only [step, hstk]; exact Nat.le_refl _
      | cons top rest =>
          obtain ⟨i, tid⟩ := top
          simp only [step, hstk]
          exact Nat.le_refl _
  | logp ctx payload =>
      cases hstk : st.ctxStacks ctx with
      | nil => simp only [step, hstk]; exact Nat.le_refl _
      | cons top rest =>
          obtain ⟨i, tid⟩ := top
          simp only [step, hstk]
          exact Nat.le_refl _
  | shutdown => simp only [step]; exact Nat.le_refl _

/-- The store never contains a span id at or above the fresh-id
counter (preserved by every operation). -/
def IdsBounded (st : TraceState) : Prop := ∀ s ∈ st.spans, s.id < st.nextId

theorem step_ids_bounded {st : TraceState} (hb : IdsBounded st) (op : Op) :
    IdsBounded (step st op) := by
  cases op with
  | enter ctx nm =>
      obtain ⟨sp, hspid, _, _, _, hspans⟩ := step_enter_spans st ctx nm
      intro s hs
      rw [hspans] at hs
      rw [step_enter_nextId]
      rcases List.mem_append.mp hs with hs | hs
      · exact Nat.lt_succ_of_lt (hb s hs)
      · rw [List.mem_singleton.mp hs, hspid]
        exact Nat.lt_succ_self _
  | exitOk ctx =>
      cases hstk : st.ctxStacks ctx with
      | nil => simp only [step, hstk]; exact hb
      | cons top rest =>
          obtain ⟨i, tid⟩ := top
          simp only [step, hstk]
          intro s hs
          obtain ⟨s0, hs0, hcase⟩ := mem_updateSpan hs
          rcases hcase with ⟨_, heqs⟩ | ⟨_, heqs⟩
          · rw [heqs]; exact hb s0 hs0
          · rw [heqs, closeOr_id]; exact hb s0 hs0
  | exitErr ctx e =>
      cases hstk : st.ctxStacks ctx with
      | nil => simp only [step, hstk]; exact hb
      | cons top rest =>
          obtain ⟨i, tid⟩ := top
          simp only [step, hstk]
          intro s hs
          obtain ⟨s0, hs0, hcase⟩ := mem_updateSpan hs
          rcases hcase with ⟨_, heqs⟩ | ⟨_, heqs⟩
          · rw [heqs]; exact hb s0 hs0
          · rw [heqs, closeOr_id, appendLogOr_id]; exact hb s0 hs0
  | logp ctx payload =>
      cases hstk : st.ctxStacks ctx with
      | nil => simp only [step, hstk]; exact hb
      | cons top rest =>
          obtain ⟨i, tid⟩ := top
          simp only [step, hstk]
          intro s hs
          obtain ⟨s0, hs0, hcase⟩ := mem_updateSpan hs
          rcases hcase with ⟨_, heqs⟩ | ⟨_, heqs⟩
          · rw [heqs]; exact hb s0 hs0
          · rw [heqs, appendLogOr_id]; exact hb s0 hs0
  | shutdown =>
      simp only [step]
      intro s hs
      obtain ⟨s0, hs0, heq⟩ := List.mem_map.mp hs
      rw [← heq, closeOr_id]
      exact hb s0 hs0

theorem step_exitOk_stacks_pop {st2 : TraceState} {ctx i tid : Nat}
    {tl : List (Nat × Nat)} (hstk2 : st2.ctxStacks ctx = (i, tid) :: tl) :
    (step st2 (Op.exitOk ctx)).ctxStacks =
      fun c => if c = ctx then tl else st2.ctxStacks c := by
  simp only [step, hstk2]

theorem step_exitErr_stacks_pop {st2 : TraceState} {ctx i tid : Nat}
    {tl : List (Nat × Nat)} {e : String}
    (hstk2 : st2.ctxStacks ctx = (i, tid) :: tl) :
    (step st2 (Op.exitErr ctx e)).ctxStacks =
      fun c => if c = ctx then tl else st2.ctxStacks c := by
  simp only [step, hstk2]

theorem step_exitOk_spans_pop {st2 : TraceState} {ctx i tid : Nat}
    {tl : List (Nat × Nat)} (hstk2 : st2.ctxStacks ctx = (i, tid) :: tl) :
    (step st2 (Op.exitOk ctx)).spans =
      updateSpan st2.spans i (fun s => closeOr s ClosedStatus.completed st2.clock) := by
  simp only [step, hstk2]

theorem step_exitErr_spans_pop {st2 : TraceState} {ctx i tid : Nat}
    {tl : List (Nat × Nat)} {e : String}
    (hstk2 : st2.ctxStacks ctx = (i, tid) :: tl) :
    (step st2 (Op.exitErr ctx e)).spans =
      updateSpan st2.spans i
        (fun s => closeOr (appendLogOr s e st2.clock) ClosedStatus.failed st2.clock) := by
  simp only [step, hstk2]

/-- The scoped handle is balanced: running any program leaves every
context's stack exactly as it was (each traced call pops the span it
pushed, on every exit path). -/
theorem exec_stacks (ctx : Nat) (p : Prog) :
    ∀ st : TraceState, (exec ctx p st).1.ctxStacks = st.ctxStacks := by
  induction p with
  | skip => intro st; rfl
  | raiseE e => intro st; rfl
  | seq a b iha ihb =>
      intro st
      simp only [exec]
      cases hx : exec ctx a st with
      | mk st1 r =>
          have ha := iha st
          rw [hx] at ha
          cases r with
          | none =>
              simp only
              rw [ihb st1]
              exact ha
          | some e =>
              simp only
              exact ha
  | logCall payload => intro st; exact step_logp_stacks st ctx payload
  | traced nm body ih =>
      intro st
      simp only [exec]
      obtain ⟨en, hen1, hstacks⟩ := step_enter_stacks st ctx nm
      obtain ⟨i, tid⟩ := en
      cases hx : exec ctx body (step st (Op.enter ctx nm)) with
      | mk st2 r =>
          have hb := ih (step st (Op.enter ctx nm))
          rw [hx] at hb
          have hstk2 : st2.ctxStacks ctx = (i, tid) :: st.ctxStacks ctx := by
            show st2.ctxStacks ctx = (i, tid) :: st.ctxStacks ctx
            calc st2.ctxStacks ctx
                = (step st (Op.enter ctx nm)).ctxStacks ctx := by rw [hb]
              _ = (i, tid) :: st.ctxStacks ctx := by rw [hstacks]; simp
          cases r with
          | none =>
              simp only
              rw [step_exitOk_stacks_pop hstk2]
              funext c
              by_cases hc : c = ctx
              · simp [hc]
              · simp only [if_neg hc]
                rw [hb, hstacks]
                simp [hc]
          | some e =>
              simp only
              rw [step_exitErr_stacks_pop hstk2]
              funext c
              by_cases hc : c = ctx
              · simp [hc]
              · simp only [if_neg hc]
                rw [hb, hstacks]
                simp [hc]

theorem exec_ids_bounded (ctx : Nat) (p : Prog) :
    ∀ st : TraceState, IdsBounded st → IdsBounded (exec ctx p st).1 := by
  induction p with
  | skip => intro st hb; exact hb
  | raiseE e => intro st hb; exact hb
  | seq a b iha ihb =>
      intro st hb
      simp only [exec]
      cases hx : exec ctx a st with
      | mk st1 r =>
          have h1 := iha st hb
          rw [hx] at h1
          cases r with
          | none => simp only; exact ihb st1 h1
          | some e => simp only; exact h1
  | logCall payload =>
      intro st hb
      exact step_ids_bounded hb _
  | traced nm body ih =>
      intro st hb
      simp only [exec]
      cases hx : exec ctx body (step st (Op.enter ctx nm)) with
      | mk st2 r =>
          have h2 := ih (step st (Op.enter ctx nm)) (step_ids_bounded hb _)
          rw [hx] at h2
          cases r with
          | none => simp only; exact step_ids_bounded h2 _
          | some e => simp only; exact step_ids_bounded h2 _

theorem exec_nextId_mono (ctx : Nat) (p : Prog) :
    ∀ st : TraceState, st.nextId ≤ (exec ctx p st).1.nextId := by
  induction p with
  | skip => intro st; exact Nat.le_refl _
  | raiseE e => intro st; exact Nat.le_refl _
  | seq a b iha ihb =>
      intro st
      simp only [exec]
      cases hx : exec ctx a st with
      | mk st1 r =>
          have h1 := iha st
          rw [hx] at h1
          cases r with
          | none =>
              simp only
              exact Nat.le_trans h1 (ihb st1)
          | some e => simp only; exact h1
  | logCall payload =>
      intro st
      exact step_nextId_mono st _
  | traced nm body ih =>
      intro st
      simp only [exec]
      cases hx : exec ctx body (step st (Op.enter ctx nm)) with
      | mk st2 r =>
          have h2 := ih (step st (Op.enter ctx nm))
          rw [hx] at h2
          have h1 := step_nextId_mono st (Op.enter ctx nm)
          cases r with
          | none =>
              simp only
              exact Nat.le_trans h1 (Nat.le_trans h2 (step_nextId_mono st2 _))
          | some e =>
              simp only
              exact Nat.le_trans h1 (Nat.le_trans h2 (step_nextId_mono st2 _))

/-- Running a program only ever appends log entries to spans that were
already in the store: their id, name, timing, status and existing logs
are untouched. -/
theorem exec_preserves (ctx : Nat) (p : Prog) :
    ∀ st : TraceState, IdsBounded st → ∀ s ∈ st.spans,
      ∃ tail : List LogEntry,
        { s with logs := s.logs ++ tail } ∈ (exec ctx p st).1.spans := by
  induction p with
  | skip =>
      intro st _ s hs
      exact ⟨[], by simpa using hs⟩
  | raiseE e =>
      intro st _ s hs
      exact ⟨[], by simpa using hs⟩
  | seq a b iha ihb =>
      intro st hb s hs
      simp only [exec]
      cases hx : exec ctx a st with
      | mk st1 r =>
          obtain ⟨t1, ht1⟩ := iha st hb s hs
          rw [hx] at ht1
          have hb1 : IdsBounded st1 := by
            have := exec_ids_bounded ctx a st hb
            rwa [hx] at this
          cases r with
          | none =>
              simp only
              obtain ⟨t2, ht2⟩ := ihb st1 hb1 _ ht1
              refine ⟨t1 ++ t2, ?_⟩
              have : { s with logs := s.logs ++ (t1 ++ t2) } =
                  { { s with logs := s.logs ++ t1 } with
                    logs := ({ s with logs := s.logs ++ t1 } :
                      Span).logs ++ t2 } := by
                simp [List.append_assoc]
              rw [this]
              exact ht2
          | some e =>
              simp only
              exact ⟨t1, ht1⟩
  | logCall payload =>
      intro st hb s hs
      simp only [exec]
      cases hstk : st.ctxStacks ctx with
      | nil =>
          have : (step st (Op.logp ctx payload)).spans = st.spans := by
            simp only [step, hstk]
          rw [this]
          exact ⟨[], by simpa using hs⟩
      | cons top tl =>
          obtain ⟨i, tid⟩ := top
          have hsp : (step st (Op.logp ctx payload)).spans =
              updateSpan st.spans i (fun s => appendLogOr s payload st.clock) := by
            simp only [step, hstk]
          rw [hsp]
          by_cases hid : s.id = i
          · by_cases hrun : s.status = SpanStatus.RUNNING
            · refine ⟨[{ timestamp := st.clock, payload := payload }], ?_⟩
              have := updateSpan_mem_of_mem i
                (fun s => appendLogOr s payload st.clock) hs
              rw [if_pos hid] at this
              simp only at this
              rwa [appendLogOr_of_running payload st.clock hrun] at this
            · refine ⟨[], ?_⟩
              have := updateSpan_mem_of_mem i
                (fun s => appendLogOr s payload st.clock) hs
              rw [if_pos hid] at this
              simp only at this
              rw [appendLogOr_of_closed payload st.clock hrun] at this
              simpa using this
          · exact ⟨[], by
              simpa using updateSpan_mem_of_mem_ne _ hs hid⟩
  | traced nm body ih =>
      intro st hb s hs
      simp only [exec]
      obtain ⟨sp, hspid, hspnm, hsprun, hspend, hspans⟩ :=
        step_enter_spans st ctx nm
      obtain ⟨en, hen1, hstacks⟩ := step_enter_stacks st ctx nm
      obtain ⟨i, tid⟩ := en
      simp only at hen1
      have hs1 : s ∈ (step st (Op.enter ctx nm)).spans := by
        rw [hspans]
        exact List.mem_append_left _ hs
      have hb1 : IdsBounded (step st (Op.enter ctx nm)) :=
        step_ids_bounded hb _
      cases hx : exec ctx body (step st (Op.enter ctx nm)) with
      | mk st2 r =>
          obtain ⟨t1, ht1⟩ := ih (step st (Op.enter ctx nm)) hb1 s hs1
          rw [hx] at ht1
          have hbal := exec_stacks ctx body (step st (Op.enter ctx nm))
          rw [hx] at hbal
          have hstk2 : st2.ctxStacks ctx = (i, tid) :: st.ctxStacks ctx := by
            calc st2.ctxStacks ctx
                = (step st (Op.enter ctx nm)).ctxStacks ctx := by rw [hbal]
              _ = (i, tid) :: st.ctxStacks ctx := by rw [hstacks]; simp
          have hsid_ne : ({ s with logs := s.logs ++ t1 } : Span).id ≠ i := by
            show s.id ≠ i
            rw [hen1]
            exact Nat.ne_of_lt (hb s hs)
          cases r with
          | none =>
              simp only
              rw [step_exitOk_spans_pop hstk2]
              exact ⟨t1, updateSpan_mem_of_mem_ne _ ht1 hsid_ne⟩
          | some e =>
              simp only
              rw [step_exitErr_spans_pop hstk2]
              exact ⟨t1, updateSpan_mem_of_mem_ne _ ht1 hsid_ne⟩

theorem traced_call_scoped (ctx : Nat) (nm : String) (body : Prog)
    (st : TraceState) (hb : IdsBounded st) :
    (exec ctx (Prog.traced nm body) st).2 = progResult body ∧
    (exec ctx (Prog.traced nm body) st).1.ctxStacks = st.ctxStacks ∧
    ∃ sp ∈ (exec ctx (Prog.traced nm body) st).1.spans,
      sp.id = st.nextId ∧ sp.name = nm ∧ sp.end_time ≠ none ∧
      (progResult body = none → sp.status = SpanStatus.COMPLETED) ∧
      (∀ e, progResult body = some e →
        sp.status = SpanStatus.FAILED ∧ ∃ le ∈ sp.logs, le.payload = e) := by
  refine ⟨?_, exec_stacks ctx (Prog.traced nm body) st, ?_⟩
  · rw [exec_result]
    rfl
  · obtain ⟨sp0, hspid, hspnm, hsprun, hspend, hspans⟩ :=
      step_enter_spans st ctx nm
    obtain ⟨en, hen1, hstacks⟩ := step_enter_stacks st ctx nm
    obtain ⟨i, tid⟩ := en
    simp only at hen1
    have hsp0mem : sp0 ∈ (step st (Op.enter ctx nm)).spans := by
      rw [hspans]
      exact List.mem_append_right _ (List.mem_singleton_self _)
    have hb1 : IdsBounded (step st (Op.enter ctx nm)) := step_ids_bounded hb _
    have hres := exec_result ctx body (step st (Op.enter ctx nm))
    simp only [exec]
    cases hx : exec ctx body (step st (Op.enter ctx nm)) with
    | mk st2 r =>
        rw [hx] at hres
        simp only at hres
        obtain ⟨t1, ht1⟩ := exec_preserves ctx body _ hb1 sp0 hsp0mem
        rw [hx] at ht1
        set sp1 : Span := { sp0 with logs := sp0.logs ++ t1 } with hsp1
        have hsp1id : sp1.id = st.nextId := hspid
        have hsp1run : sp1.status = SpanStatus.RUNNING := hsprun
        have hbal := exec_stacks ctx body (step st (Op.enter ctx nm))
        rw [hx] at hbal
        have hstk2 : st2.ctxStacks ctx = (i, tid) :: st.ctxStacks ctx := by
          calc st2.ctxStacks ctx
              = (step st (Op.enter ctx nm)).ctxStacks ctx := by rw [hbal]
            _ = (i, tid) :: st.ctxStacks ctx := by rw [hstacks]; simp
        have hsp1i : sp1.id = i := by rw [hsp1id, hen1]
        cases r with
        | none =>
            simp only
            rw [step_exitOk_spans_pop hstk2]
            have hmem := updateSpan_mem_of_mem i
              (fun s => closeOr s ClosedStatus.completed st2.clock) ht1
            rw [if_pos hsp1i] at hmem
            simp only at hmem
            rw [closeOr_of_running _ _ hsp1run] at hmem
            refine ⟨_, hmem, hsp1id, hspnm, ?_, ?_, ?_⟩
            · simp
            · intro _
              show ClosedStatus.completed.toStatus = SpanStatus.COMPLETED
              rfl
            · intro e he
              rw [he] at hres
              simp at hres
        | some e =>
            simp only
            rw [step_exitErr_spans_pop hstk2]
            have hmem := updateSpan_mem_of_mem i
              (fun s => closeOr (appendLogOr s e st2.clock)
                ClosedStatus.failed st2.clock) ht1
            rw [if_pos hsp1i] at hmem
            simp only at hmem
            rw [appendLogOr_of_running _ _ hsp1run] at hmem
            have hrun2 : ({ sp1 with
                logs := sp1.logs ++ [{ timestamp := st2.clock, payload := e }] } :
                  Span).status = SpanStatus.RUNNING := hsp1run
            rw [closeOr_of_running _ _ hrun2] at hmem
            refine ⟨_, hmem, hsp1id, hspnm, ?_, ?_, ?_⟩
            · simp
            · intro hcontra
              rw [hcontra] at hres
              simp at hres
            · intro e' he'
              rw [← hres] at he'
              obtain rfl : e = e' := Option.some.injEq .. ▸ he'
              constructor
              · show ClosedStatus.failed.toStatus = SpanStatus.FAILED
                rfl
              · refine ⟨{ timestamp := st2.clock, payload := e }, ?_, rfl⟩
                show _ ∈ sp1.logs ++ [{ timestamp := st2.clock, payload := e }]
                exact List.mem_append_right _ (List.mem_singleton_self _)

/-! ## Current-span accessors (modelled from the spec, section 4.2) -/

/-- Modelled from the spec: the sentinel "no-op span" returned by the
safe accessor outside any traced scope; log calls against it go
nowhere. -/
def noOpSpan : Span :=
  { id := 0, trace_id := 0, parent_id := none, name := "NO_OP",
    start_time := 0, end_time := none, status := SpanStatus.RUNNING,
    logs := [] }

/-- Look up a span by id in the store. -/
def findSpan (L : List Span) (i : Nat) : Option Span :=
  L.find? (fun s => decide (s.id = i))

/-- Modelled from the spec: `get_current_span()` returns the top of the
active context's stack and fails with `NoActiveSpanError` outside any
traced scope. -/
def get_current_span (st : TraceState) (ctx : Nat) :
    Except NoActiveSpanError Span :=
  match st.ctxStacks ctx with
  | [] => Except.error NoActiveSpanError.noActiveSpan
  | (i, _) :: _ =>
      match findSpan st.spans i with
      | some s => Except.ok s
      | none => Except.error NoActiveSpanError.noActiveSpan

/-- Modelled from the spec: `get_current_span_safe()`: total; returns
the sentinel no-op span instead of failing outside any traced scope. -/
def get_current_span_safe (st : TraceState) (ctx : Nat) : Span :=
  match st.ctxStacks ctx with
  | [] => noOpSpan
  | (i, _) :: _ => (findSpan st.spans i).getD noOpSpan

/-! ## Export tree and its JSON serialization
(modelled from the spec, sections 4.4 and 6) -/

/-- Serialization of a span status. -/
def statusString : SpanStatus → String
  | SpanStatus.RUNNING => "RUNNING"
  | SpanStatus.COMPLETED => "COMPLETED"
  | SpanStatus.FAILED => "FAILED"
  | SpanStatus.ABORTED => "ABORTED"

/-- Modelled from the spec: the `data` record of an export node: the
span's attributes and log payloads merged into one key/value record. -/
def spanData (s : Span) : List (String × String) :=
  ("status", statusString s.status) ::
  ("start_time", toString s.start_time) ::
  ("end_time", match s.end_time with
    | none => "null"
    | some t => toString t) ::
  s.logs.map (fun le => ("log", le.payload))

/-- Modelled from the spec: a node of the export tree handed to the
rendering collaborator: `(name, data, children)`. -/
inductive ExportNode : Type where
  | mk : String → List (String × String) → List ExportNode → ExportNode

/-- The `name` field of an export node. -/
def ExportNode.name : ExportNode → String
  | ExportNode.mk n _ _ => n

/-- The `data` field of an export node. -/
def ExportNode.data : ExportNode → List (String × String)
  | ExportNode.mk _ d _ => d

/-- The `children` field of an export node. -/
def ExportNode.children : ExportNode → List ExportNode
  | ExportNode.mk _ _ cs => cs

theorem length_filter_lt {α : Type} (p : α → Bool) (L : List α) (a : α)
    (ha : a ∈ L) (hpa : p a = false) : (L.filter p).length < L.length := by
  induction L with
  | nil => cases ha
  | cons b tl ih =>
      rcases List.mem_cons.mp ha with heq | hmem
      · rw [List.filter_cons, ← heq, hpa]
        simp only [List.length_cons]
        exact Nat.lt_succ_of_le (List.length_filter_le _ _)
      · rw [List.filter_cons]
        cases hb : p b
        · simp only [List.length_cons]
          exact Nat.lt_succ_of_lt (ih hmem)
        · simp only [List.length_cons]
          exact Nat.succ_lt_succ (ih hmem)

/-- Modelled from the spec: materialize the export subtree rooted at a
span.  A span's children are the spans of the pool whose `parent_id`
refers to it, kept in creation (store) order; each child subtree is
built from the pool without the child itself. -/
def buildNode (L : List Span) (s : Span) : ExportNode :=
  ExportNode.mk s.name (spanData s)
    ((L.filter (fun c => decide (c.parent_id = some s.id))).attach.map
      (fun c => buildNode (L.filter (fun t => decide (t.id ≠ c.1.id))) c.1))
termination_by L.length
decreasing_by
  exact length_filter_lt _ _ _ (List.mem_of_mem_filter c.2) (by simp)

/-- JSON rendering of a key/value data record. -/
def dataJson : List (String × String) → String
  | [] => ""
  | [(k, v)] => "\"" ++ k ++ "\":\"" ++ v ++ "\""
  | (k, v) :: rest => "\"" ++ k ++ "\":\"" ++ v ++ "\"," ++ dataJson rest

mutual

/-- JSON rendering of an export node, the byte-level export contract:
`\x7b"name":..., "data":\x7b...\x7d, "children":[...]\x7d`. -/
def nodeJson : ExportNode → String
  | ExportNode.mk n d cs =>
      "\x7b\"name\":\"" ++ n ++ "\",\"data\":\x7b" ++ dataJson d ++
        "\x7d,\"children\":[" ++ childrenJson cs ++ "]\x7d"

/-- JSON rendering of a children array, comma-separated. -/
def childrenJson : List ExportNode → String
  | [] => ""
  | [c] => nodeJson c
  | c :: rest => nodeJson c ++ "," ++ childrenJson rest

end

/-- The root span recorded for a trace, if any. -/
def rootSpan (L : List Span) (tid : Nat) : Option Span :=
  L.find? (fun s => decide (s.trace_id = tid) && decide (s.parent_id = none))

/-- Modelled from the spec: `get_tree(trace_id)`: materialize the full
tree of a trace from the store. -/
def exportTree (st : TraceState) (tid : Nat) : Option ExportNode :=
  match rootSpan st.spans tid with
  | none => none
  | some r =>
      some (buildNode (st.spans.filter (fun t => decide (t.id ≠ r.id))) r)

/-- Modelled from the spec: the tree JSON embedded in the static export
document. -/
def exportJson (st : TraceState) (tid : Nat) : String :=
  match exportTree st tid with
  | none => "null"
  | some node => nodeJson node

/-- Occurrence of a node in an export tree (reflexive descendant). -/
inductive NodeIn : ExportNode → ExportNode → Prop where
  | refl : ∀ n, NodeIn n n
  | child : ∀ {n c t}, NodeIn n c → c ∈ t.children → NodeIn n t

theorem nodeIn_trans {a b c : ExportNode} (hab : NodeIn a b)
    (hbc : NodeIn b c) : NodeIn a c := by
  induction hbc with
  | refl => exact hab
  | child _ hmem ih => exact NodeIn.child ih hmem

/-- Reflexive-transitive descendant relation between spans of a pool:
`Desc L s t` holds when `t` is reached from `s` by parent links of
spans in `L`. -/
inductive Desc (L : List Span) : Span → Span → Prop where
  | refl : ∀ s, Desc L s s
  | step : ∀ {s t c}, Desc L s t → c ∈ L → c.parent_id = some t.id →
      Desc L s c

theorem buildNode_name (L : List Span) (s : Span) :
    (buildNode L s).name = s.name := by
  rw [buildNode]
  rfl

theorem buildNode_data (L : List Span) (s : Span) :
    (buildNode L s).data = spanData s := by
  rw [buildNode]
  rfl

theorem buildNode_children (L : List Span) (s : Span) :
    (buildNode L s).children =
      (L.filter (fun c => decide (c.parent_id = some s.id))).attach.map
        (fun c => buildNode (L.filter (fun t => decide (t.id ≠ c.1.id))) c.1) := by
  rw [buildNode]
  rfl

theorem buildNode_child_mem {L : List Span} {s c : Span}
    (hc : c ∈ L.filter (fun c => decide (c.parent_id = some s.id))) :
    buildNode (L.filter (fun t => decide (t.id ≠ c.id))) c ∈
      (buildNode L s).children := by
  rw [buildNode_children]
  exact List.mem_map.mpr ⟨⟨c, hc⟩, List.mem_attach _ _, rfl⟩

/-- Completeness of the tree materialization: every span reachable from
the root through parent links appears in the built tree (with its own
name and data record). -/
theorem buildNode_complete {L : List Span}
    (hinc : ∀ c ∈ L, ∀ q, c.parent_id = some q → q < c.id)
    {root t : Span} (hdesc : Desc L root t) :
    ∃ L' : List Span, (∀ u ∈ L, t.id < u.id → u ∈ L') ∧
      (∀ u ∈ L', u ∈ L) ∧
      NodeIn (buildNode L' t) (buildNode L root) := by
  induction hdesc with
  | refl =>
      exact ⟨L, fun u hu _ => hu, fun u hu => hu, NodeIn.refl _⟩
  | step hdesc hc hcp ih =>
      rename_i t c
      obtain ⟨L', hup, hsub, hin⟩ := ih
      have hct : t.id < c.id := hinc c hc t.id hcp
      have hcL' : c ∈ L' := hup c hc hct
      have hckids : c ∈ L'.filter (fun x => decide (x.parent_id = some t.id)) := by
        rw [List.mem_filter]
        exact ⟨hcL', by simp [hcp]⟩
      have hchild := buildNode_child_mem hckids
      refine ⟨L'.filter (fun x => decide (x.id ≠ c.id)), ?_, ?_, ?_⟩
      · intro u hu hcu
        rw [List.mem_filter]
        refine ⟨hup u hu (Nat.lt_trans hct hcu), ?_⟩
        simp only [decide_eq_true_eq]
        omega
      · intro u hu
        exact hsub u (List.mem_of_mem_filter hu)
      · exact nodeIn_trans (NodeIn.child (NodeIn.refl _) hchild) hin

theorem eq_of_rootCount_one {L : List Span} {tid : Nat}
    (h : rootCount L tid = 1) {a b : Span} (ha : a ∈ L) (hb : b ∈ L)
    (hta : a.trace_id = tid) (hpa : a.parent_id = none)
    (htb : b.trace_id = tid) (hpb : b.parent_id = none) : a = b := by
  have hfa : a ∈ L.filter
      (fun s => decide (s.trace_id = tid) && decide (s.parent_id = none)) := by
    rw [List.mem_filter]
    exact ⟨ha, by simp [hta, hpa]⟩
  have hfb : b ∈ L.filter
      (fun s => decide (s.trace_id = tid) && decide (s.parent_id = none)) := by
    rw [List.mem_filter]
    exact ⟨hb, by simp [htb, hpb]⟩
  unfold rootCount at h
  obtain ⟨x, hx⟩ := List.length_eq_one.mp h
  rw [hx] at hfa hfb
  rw [List.mem_singleton.mp hfa, List.mem_singleton.mp hfb]

theorem exists_root_of_rootCount_one {L : List Span} {tid : Nat}
    (h : rootCount L tid = 1) :
    ∃ r ∈ L, r.trace_id = tid ∧ r.parent_id = none := by
  unfold rootCount at h
  obtain ⟨x, hx⟩ := List.length_eq_one.mp h
  have hxmem : x ∈ L.filter
      (fun s => decide (s.trace_id = tid) && decide (s.parent_id = none)) := by
    rw [hx]
    exact List.mem_singleton_self _
  have hprop := List.of_mem_filter hxmem
  simp only [Bool.and_eq_true, decide_eq_true_eq] at hprop
  exact ⟨x, List.mem_of_mem_filter hxmem, hprop.1, hprop.2⟩

/-- Every span of a trace is a descendant of the trace's root within the
pool that excludes the root itself. -/
theorem trace_desc {st : TraceState} (hinv : Inv st) {root : Span}
    (hroot : root ∈ st.spans) (hrpar : root.parent_id = none) :
    ∀ s ∈ st.spans, s.trace_id = root.trace_id →
      Desc (st.spans.filter (fun t => decide (t.id ≠ root.id))) root s := by
  have main : ∀ n : Nat, ∀ s ∈ st.spans, s.id = n →
      s.trace_id = root.trace_id →
      Desc (st.spans.filter (fun t => decide (t.id ≠ root.id))) root s := by
    intro n
    induction n using Nat.strong_induction_on with
    | _ n ih =>
        intro s hs hsn htr
        by_cases hsr : s = root
        · rw [hsr]
          exact Desc.refl _
        · cases hspar : s.parent_id with
          | none =>
              exact absurd
                (eq_of_rootCount_one (hinv.root_unique root hroot) hs hroot
                  htr hspar rfl hrpar) hsr
          | some p =>
              obtain ⟨ps, hps, hpsid, hpstr, hplt⟩ :=
                hinv.parent_ok s hs p hspar
              have hdesc : Desc (st.spans.filter
                  (fun t => decide (t.id ≠ root.id))) root ps := by
                apply ih ps.id (by omega) ps hps rfl
                rw [hpstr, htr]
              have hsmem : s ∈ st.spans.filter
                  (fun t => decide (t.id ≠ root.id)) := by
                rw [List.mem_filter]
                refine ⟨hs, ?_⟩
                simp only [decide_eq_true_eq]
                intro hcontra
                exact hsr (span_eq_of_id hinv.ids_nodup hs hroot hcontra)
              exact Desc.step hdesc hsmem (by rw [hspar, hpsid])
  intro s hs htr
  exact main s.id s hs rfl htr

/-- Closed spans are never modified by any further session operation. -/
theorem closed_span_frozen {st : TraceState} {s : Span} (hs : s ∈ st.spans)
    (hcl : s.status ≠ SpanStatus.RUNNING) (op : Op) :
    s ∈ (step st op).spans := by
  cases op with
  | enter ctx nm =>
      obtain ⟨sp, _, _, _, _, hspans⟩ := step_enter_spans st ctx nm
      rw [hspans]
      exact List.mem_append_left _ hs
  | exitOk ctx =>
      cases hstk : st.ctxStacks ctx with
      | nil => simp only [step, hstk]; exact hs
      | cons top tl =>
          obtain ⟨i, tid⟩ := top
          simp only [step, hstk]
          have hmem := updateSpan_mem_of_mem i
            (fun s => closeOr s ClosedStatus.completed st.clock) hs
          by_cases hid : s.id = i
          · rw [if_pos hid] at hmem
            simp only at hmem
            rwa [closeOr_of_closed _ _ hcl] at hmem
          · rwa [if_neg hid] at hmem
  | exitErr ctx e =>
      cases hstk : st.ctxStacks ctx with
      | nil => simp only [step, hstk]; exact hs
      | cons top tl =>
          obtain ⟨i, tid⟩ := top
          simp only [step, hstk]
          have hmem := updateSpan_mem_of_mem i
            (fun s => closeOr (appendLogOr s e st.clock)
              ClosedStatus.failed st.clock) hs
          by_cases hid : s.id = i
          · rw [if_pos hid] at hmem
            simp only at hmem
            rw [appendLogOr_of_closed _ _ hcl, closeOr_of_closed _ _ hcl]
              at hmem
            exact hmem
          · rwa [if_neg hid] at hmem
  | logp ctx payload =>
      cases hstk : st.ctxStacks ctx with
      | nil => simp only [step, hstk]; exact hs
      | cons top tl =>
          obtain ⟨i, tid⟩ := top
          simp only [step, hstk]
          have hmem := updateSpan_mem_of_mem i
            (fun s => appendLogOr s payload st.clock) hs
          by_cases hid : s.id = i
          · rw [if_pos hid] at hmem
            simp only at hmem
            rwa [appendLogOr_of_closed _ _ hcl] at hmem
          · rwa [if_neg hid] at hmem
  | shutdown =>
      simp only [step]
      exact List.mem_map.mpr ⟨s, hs, closeOr_of_closed _ _ hcl⟩

theorem transGen_irrefl_of_lt {r : Nat → Nat → Prop}
    (h : ∀ a b, r a b → a < b) : ∀ a, ¬ Relation.TransGen r a a := by
  have hany : ∀ a b, Relation.TransGen r a b → a < b := by
    intro a b hab
    induction hab with
    | single h1 => exact h _ _ h1
    | tail _ h1 ih => exact Nat.lt_trans ih (h _ _ h1)
  intro a ha
  exact absurd (hany a a ha) (Nat.lt_irrefl a)

/-! ## The export tree as seen by the viewer (for the view contract) -/

mutual

/-- The export node handed to the JavaScript viewer, as a JavaScript
object: `name`, `data` and `children` fields are always present, and no
`value` field is stored. -/
def exportNodeToJs : ExportNode → JsNode
  | ExportNode.mk n d cs =>
      JsNode.mk n (some (dataJson d)) (some (exportNodesToJs cs)) none

/-- `exportNodeToJs` applied to each child. -/
def exportNodesToJs : List ExportNode → List JsNode
  | [] => []
  | c :: cs => exportNodeToJs c :: exportNodesToJs cs

end

mutual

/-- No node of the tree carries a stored `value` field. -/
def noStoredValues : JsNode → Bool
  | JsNode.mk _ _ cs v =>
      (match v with
       | none => true
       | some _ => false) &&
      (match cs with
       | none => true
       | some l => noStoredValues_list l)

/-- `noStoredValues` for every element of a children array. -/
def noStoredValues_list : List JsNode → Bool
  | [] => true
  | c :: cs => noStoredValues c && noStoredValues_list cs

end

mutual

theorem exportNodeToJs_wellFormed (en : ExportNode) :
    noStoredValues (exportNodeToJs en) = true ∧
      allKids (exportNodeToJs en) = true := by
  cases en with
  | mk n d cs =>
      have h := exportNodesToJs_wellFormed cs
      simp only [exportNodeToJs, noStoredValues, allKids, Bool.and_eq_true]
      exact ⟨⟨trivial, h.1⟩, h.2⟩

theorem exportNodesToJs_wellFormed (l : List ExportNode) :
    noStoredValues_list (exportNodesToJs l) = true ∧
      allKids_list (exportNodesToJs l) = true := by
  cases l with
  | nil => exact ⟨rfl, rfl⟩
  | cons c cs =>
      have hc := exportNodeToJs_wellFormed c
      have hcs := exportNodesToJs_wellFormed cs
      simp only [exportNodesToJs, noStoredValues_list, allKids_list,
        Bool.and_eq_true]
      exact ⟨⟨hc.1, hcs.1⟩, hc.2, hcs.2⟩

end

/-! ## The claims -/

/-- C1: For every traced call entered through the scoped handle (the
`@trace` decorator), on every exit path the span pushed for that call is
popped (all context stacks are restored) and closed: a normal return of
the wrapped body closes the span `COMPLETED`; an escaping error closes
it `FAILED` after the error is recorded as a log entry on that span; and
the original error still propagates to the caller unchanged (the traced
call's outcome is exactly the body's own outcome). -/
theorem c1_traced_scope_release (ctx : Nat) (nm : String) (body : Prog)
    (st : TraceState) (hb : IdsBounded st) :
    (exec ctx (Prog.traced nm body) st).2 = progResult body ∧
    (exec ctx (Prog.traced nm body) st).1.ctxStacks = st.ctxStacks ∧
    ∃ sp ∈ (exec ctx (Prog.traced nm body) st).1.spans,
      sp.id = st.nextId ∧ sp.name = nm ∧ sp.end_time ≠ none ∧
      (progResult body = none → sp.status = SpanStatus.COMPLETED) ∧
      (∀ e, progResult body = some e →
        sp.status = SpanStatus.FAILED ∧ ∃ le ∈ sp.logs, le.payload = e) :=
  traced_call_scoped ctx nm body st hb

theorem c1_witness :
    IdsBounded initState ∧
    ((exec 0 (Prog.traced "g" (Prog.raiseE "boom")) initState).2 =
        progResult (Prog.raiseE "boom") ∧
      (exec 0 (Prog.traced "g" (Prog.raiseE "boom")) initState).1.ctxStacks =
        initState.ctxStacks ∧
      ∃ sp ∈ (exec 0 (Prog.traced "g" (Prog.raiseE "boom")) initState).1.spans,
        sp.id = initState.nextId ∧ sp.name = "g" ∧ sp.end_time ≠ none ∧
        (progResult (Prog.raiseE "boom") = none →
          sp.status = SpanStatus.COMPLETED) ∧
        (∀ e, progResult (Prog.raiseE "boom") = some e →
          sp.status = SpanStatus.FAILED ∧ ∃ le ∈ sp.logs, le.payload = e)) :=
  ⟨fun s hs => absurd hs (List.not_mem_nil s),
    c1_traced_scope_release 0 "g" (Prog.raiseE "boom") initState
      (fun s hs => absurd hs (List.not_mem_nil s))⟩

/-- C2: In every reachable state of the span store, the parent/child
relation over the recorded spans forms a forest: no id is its own strict
ancestor (no cycles), and every trace with a recorded span has exactly
one span of that trace without a `parent_id` (the root). -/
theorem c2_store_forest (st : TraceState) (hre : Reachable st) :
    (∀ a, ¬ Relation.TransGen
      (fun a b => ∃ s ∈ st.spans, s.id = b ∧ s.parent_id = some a) a a) ∧
    (∀ tid, (∃ s ∈ st.spans, s.trace_id = tid) →
      rootCount st.spans tid = 1) := by
  have hinv := reachable_inv hre
  constructor
  · apply transGen_irrefl_of_lt
    intro a b hab
    obtain ⟨s, hs, hid, hpar⟩ := hab
    obtain ⟨t, _, _, _, hlt⟩ := hinv.parent_ok s hs a hpar
    rw [hid] at hlt
    exact hlt
  · intro tid htid
    obtain ⟨s, hs, htr⟩ := htid
    rw [← htr]
    exact hinv.root_unique s hs

theorem c2_witness :
    (∀ a, ¬ Relation.TransGen
      (fun a b => ∃ s ∈ (step initState (Op.enter 0 "f")).spans,
        s.id = b ∧ s.parent_id = some a) a a) ∧
    (∀ tid, (∃ s ∈ (step initState (Op.enter 0 "f")).spans,
        s.trace_id = tid) →
      rootCount (step initState (Op.enter 0 "f")).spans tid = 1) :=
  c2_store_forest _ (Reachable.next _ Reachable.init)

/-- C3: A span's status only ever transitions from `RUNNING` to one of
`COMPLETED`, `FAILED` or `ABORTED` under the span-model operations, and
once a span is closed, no sequence of operations changes it at all (in
particular it never returns to `RUNNING` and never changes to another
closed status). -/
theorem c3_status_transitions :
    (∀ (s : Span) (op : SpanOp),
      (applySpanOp s op).status = s.status ∨
        (s.status = SpanStatus.RUNNING ∧
          ((applySpanOp s op).status = SpanStatus.COMPLETED ∨
           (applySpanOp s op).status = SpanStatus.FAILED ∨
           (applySpanOp s op).status = SpanStatus.ABORTED))) ∧
    (∀ (s : Span) (ops : List SpanOp), s.status ≠ SpanStatus.RUNNING →
      applySpanOps s ops = s) :=
  ⟨applySpanOp_status, applySpanOps_closed_frozen⟩

theorem c3_witness :
    applySpanOps { id := 0, trace_id := 0, parent_id := none, name := "f",
                   start_time := 0, end_time := some 1,
                   status := SpanStatus.COMPLETED, logs := [] }
      [SpanOp.closeOp ClosedStatus.aborted 5, SpanOp.appendL "x" 6] =
    { id := 0, trace_id := 0, parent_id := none, name := "f",
      start_time := 0, end_time := some 1, status := SpanStatus.COMPLETED,
      logs := [] } :=
  c3_status_transitions.2 _ _ (by decide)

/-- C4: In every reachable store state, a span whose `end_time` is set
is never modified by any further operation (so `end_time`, once set, is
never changed); `end_time` is at least `start_time`; and for every
closed parent span, its `end_time` is at least the `end_time` of each of
its closed children. -/
theorem c4_end_time_rules (st : TraceState) (hre : Reachable st) :
    (∀ s ∈ st.spans, ∀ t, s.end_time = some t → ∀ op : Op,
      s ∈ (step st op).spans) ∧
    (∀ s ∈ st.spans, ∀ t, s.end_time = some t → s.start_time ≤ t) ∧
    (∀ c ∈ st.spans, ∀ p, c.parent_id = some p → ∀ ps ∈ st.spans,
      ps.id = p → ∀ tp, ps.end_time = some tp → ∀ tc,
      c.end_time = some tc → tc ≤ tp) := by
  have hinv := reachable_inv hre
  refine ⟨?_, ?_, hinv.parent_end⟩
  · intro s hs t ht op
    apply closed_span_frozen hs ?_ op
    intro hrun
    rw [(hinv.status_end s hs).mp hrun] at ht
    cases ht
  · intro s hs t ht
    exact (hinv.end_ok s hs t ht).1

theorem c4_witness :
    (∀ s ∈ (step (step initState (Op.enter 0 "f")) (Op.exitOk 0)).spans,
      ∀ t, s.end_time = some t → ∀ op : Op,
      s ∈ (step (step (step initState (Op.enter 0 "f")) (Op.exitOk 0)) op).spans) ∧
    (∀ s ∈ (step (step initState (Op.enter 0 "f")) (Op.exitOk 0)).spans,
      ∀ t, s.end_time = some t → s.start_time ≤ t) ∧
    (∀ c ∈ (step (step initState (Op.enter 0 "f")) (Op.exitOk 0)).spans,
      ∀ p, c.parent_id = some p →
      ∀ ps ∈ (step (step initState (Op.enter 0 "f")) (Op.exitOk 0)).spans,
      ps.id = p → ∀ tp, ps.end_time = some tp → ∀ tc,
      c.end_time = some tc → tc ≤ tp) :=
  c4_end_time_rules _ (Reachable.next _ (Reachable.next _ Reachable.init))

/-- C5: `append_log` fails with an `InvalidStateError` exactly when the
span is not `RUNNING`; `close` fails with an `InvalidStateError` exactly
when the span is already closed; on the non-failing path `close` sets
`end_time` to the current time; and tracing failures are never surfaced
to the instrumented business logic (the outcome of running instrumented
code is a function of the code alone). -/
theorem c5_span_model_errors :
    (∀ (s : Span) (payload : String) (now : Nat),
      (∃ err, append_log s payload now = Except.error err) ↔
        s.status ≠ SpanStatus.RUNNING) ∧
    (∀ (s : Span) (c : ClosedStatus) (now : Nat),
      (∃ err, close s c now = Except.error err) ↔ s.isClosed = true) ∧
    (∀ (s : Span) (c : ClosedStatus) (now : Nat),
      s.status = SpanStatus.RUNNING →
      close s c now =
        Except.ok { s with status := c.toStatus, end_time := some now }) ∧
    (∀ (ctx : Nat) (p : Prog) (st : TraceState),
      (exec ctx p st).2 = progResult p) := by
  refine ⟨?_, ?_, ?_, fun ctx p st => exec_result ctx p st⟩
  · intro s payload now
    by_cases h : s.status = SpanStatus.RUNNING
    · simp [append_log, h]
    · simp [append_log, h]
      exact ⟨InvalidStateError.invalidState, trivial⟩
  · intro s c now
    by_cases h : s.status = SpanStatus.RUNNING
    · simp [close, h, Span.isClosed]
    · simp [close, h, Span.isClosed]
      exact ⟨InvalidStateError.invalidState, trivial⟩
  · intro s c now h
    simp [close, h]

theorem c5_witness :
    close { id := 0, trace_id := 0, parent_id := none, name := "f",
            start_time := 0, end_time := none, status := SpanStatus.RUNNING,
            logs := [] } ClosedStatus.completed 7 =
      Except.ok { id := 0, trace_id := 0, parent_id := none, name := "f",
                  start_time := 0, end_time := some 7,
                  status := SpanStatus.COMPLETED, logs := [] } :=
  c5_span_model_errors.2.2.1 _ ClosedStatus.completed 7 rfl

/-- C6: Outside any traced scope (the active context's span stack is
empty), `get_current_span_safe` never raises: it returns the sentinel
no-op span, while the unsafe accessor fails with `NoActiveSpanError`;
and ad-hoc log calls made there degrade to a no-op on the store. -/
theorem c6_safe_accessor_no_scope (st : TraceState) (ctx : Nat)
    (h : st.ctxStacks ctx = []) :
    get_current_span_safe st ctx = noOpSpan ∧
    get_current_span st ctx = Except.error NoActiveSpanError.noActiveSpan ∧
    ∀ payload, (step st (Op.logp ctx payload)).spans = st.spans := by
  refine ⟨?_, ?_, ?_⟩
  · simp [get_current_span_safe, h]
  · simp [get_current_span, h]
  · intro payload
    simp only [step, h]

theorem c6_witness :
    get_current_span_safe initState 0 = noOpSpan ∧
    get_current_span initState 0 =
      Except.error NoActiveSpanError.noActiveSpan ∧
    ∀ payload, (step initState (Op.logp 0 payload)).spans =
      initState.spans :=
  c6_safe_accessor_no_scope initState 0 rfl

/-- C7: On session shutdown, every span still `RUNNING` is force-closed
`ABORTED`, so that after shutdown every stored span is closed with a
non-null `end_time`; and every formerly still-open span appears in the
exported tree of its trace as a node whose data shows status `ABORTED`
and the (non-null) shutdown time as `end_time`. -/
theorem c7_shutdown_export_aborted (st : TraceState) (hre : Reachable st) :
    (∀ s' ∈ (step st Op.shutdown).spans,
      s'.status ≠ SpanStatus.RUNNING ∧ s'.end_time ≠ none) ∧
    (∀ s ∈ st.spans, s.status = SpanStatus.RUNNING →
      ∃ rootNode, exportTree (step st Op.shutdown) s.trace_id = some rootNode ∧
        ∃ n, NodeIn n rootNode ∧ n.name = s.name ∧
          ("status", "ABORTED") ∈ n.data ∧
          ("end_time", toString st.clock) ∈ n.data) := by
  have hinv' := inv_step (reachable_inv hre) Op.shutdown
  have hspans' : (step st Op.shutdown).spans =
      st.spans.map (fun s => closeOr s ClosedStatus.aborted st.clock) := by
    simp only [step]
  constructor
  · intro s' hs'
    have hrun : s'.status ≠ SpanStatus.RUNNING := by
      rw [hspans'] at hs'
      obtain ⟨s, hs, hseq⟩ := List.mem_map.mp hs'
      rw [← hseq]
      by_cases hr : s.status = SpanStatus.RUNNING
      · rw [closeOr_of_running _ _ hr]
        show ClosedStatus.aborted.toStatus ≠ SpanStatus.RUNNING
        exact ClosedStatus.toStatus_ne_running _
      · rw [closeOr_of_closed _ _ hr]
        exact hr
    refine ⟨hrun, ?_⟩
    intro hend
    exact hrun ((hinv'.status_end s' hs').mpr hend)
  · intro s hs hrun
    have heq : closeOr s ClosedStatus.aborted st.clock =
        { s with status := ClosedStatus.aborted.toStatus,
                 end_time := some st.clock } := closeOr_of_running _ _ hrun
    have hs'mem : closeOr s ClosedStatus.aborted st.clock ∈
        (step st Op.shutdown).spans := by
      rw [hspans']
      exact List.mem_map.mpr ⟨s, hs, rfl⟩
    have hs'tr : (closeOr s ClosedStatus.aborted st.clock).trace_id =
        s.trace_id := closeOr_trace s _ _
    have hrc : rootCount (step st Op.shutdown).spans s.trace_id = 1 := by
      have := hinv'.root_unique _ hs'mem
      rwa [hs'tr] at this
    obtain ⟨r0, hr0mem, hr0tr, hr0par⟩ := exists_root_of_rootCount_one hrc
    have hex : ∃ x ∈ (step st Op.shutdown).spans,
        (decide (x.trace_id = s.trace_id) && decide (x.parent_id = none)) =
          true := ⟨r0, hr0mem, by simp [hr0tr, hr0par]⟩
    obtain ⟨r, hfind⟩ :=
      Option.isSome_iff_exists.mp (List.find?_isSome.mpr hex)
    have hrmem : r ∈ (step st Op.shutdown).spans :=
      List.mem_of_find?_eq_some hfind
    have hrprop := List.find?_some hfind
    simp only [Bool.and_eq_true, decide_eq_true_eq] at hrprop
    obtain ⟨hrtr, hrpar⟩ := hrprop
    have hexp : exportTree (step st Op.shutdown) s.trace_id =
        some (buildNode ((step st Op.shutdown).spans.filter
          (fun t => decide (t.id ≠ r.id))) r) := by
      unfold exportTree rootSpan
      rw [hfind]
    have hdesc : Desc ((step st Op.shutdown).spans.filter
        (fun t => decide (t.id ≠ r.id))) r
        (closeOr s ClosedStatus.aborted st.clock) := by
      apply trace_desc hinv' hrmem hrpar _ hs'mem
      rw [hs'tr, hrtr]
    have hinc : ∀ c ∈ (step st Op.shutdown).spans.filter
        (fun t => decide (t.id ≠ r.id)), ∀ q, c.parent_id = some q →
        q < c.id := by
      intro c hc q hq
      obtain ⟨t, _, _, _, hlt⟩ :=
        hinv'.parent_ok c (List.mem_of_mem_filter hc) q hq
      exact hlt
    obtain ⟨L', _, _, hin⟩ := buildNode_complete hinc hdesc
    refine ⟨_, hexp, buildNode L' (closeOr s ClosedStatus.aborted st.clock),
      hin, ?_, ?_, ?_⟩
    · rw [buildNode_name, heq]
    · rw [buildNode_data, heq]
      simp [spanData, statusString, ClosedStatus.toStatus]
    · rw [buildNode_data, heq]
      simp [spanData]

theorem c7_witness :
    (∀ s' ∈ (step (step initState (Op.enter 0 "f")) Op.shutdown).spans,
      s'.status ≠ SpanStatus.RUNNING ∧ s'.end_time ≠ none) ∧
    (∀ s ∈ (step initState (Op.enter 0 "f")).spans,
      s.status = SpanStatus.RUNNING →
      ∃ rootNode, exportTree (step (step initState (Op.enter 0 "f"))
          Op.shutdown) s.trace_id = some rootNode ∧
        ∃ n, NodeIn n rootNode ∧ n.name = s.name ∧
          ("status", "ABORTED") ∈ n.data ∧
          ("end_time", toString (step initState (Op.enter 0 "f")).clock) ∈
            n.data) :=
  c7_shutdown_export_aborted _ (Reachable.next _ Reachable.init)

/-- C8: Export is deterministic and idempotent over a completed trace:
two exports of the same completed trace with no store mutation in
between (the stores hold the same spans) yield byte-identical tree
JSON. -/
theorem c8_export_idempotent (st1 st2 : TraceState) (tid : Nat)
    (hspans : st1.spans = st2.spans)
    (_hdone : ∀ s ∈ st1.spans, s.trace_id = tid →
      s.status ≠ SpanStatus.RUNNING) :
    exportJson st1 tid = exportJson st2 tid := by
  unfold exportJson exportTree rootSpan
  rw [hspans]

theorem c8_witness :
    exportJson (step (step (step initState (Op.enter 0 "f")) (Op.exitOk 0))
      (Op.logp 1 "x")) 0 =
    exportJson (step (step initState (Op.enter 0 "f")) (Op.exitOk 0)) 0 :=
  c8_export_idempotent _ _ 0 (by decide) (by decide)

/-- C9: The tree handed to the viewer has nodes of shape
`(name, data, children)` with no stored `value` (the `children` field is
always present); the rendering code reads only `name`, `data` and
`children` (its output is invariant under any stored `value` fields);
and the `value` consumed by the flame chart is recomputed by
`update_flame_chart` from the tree on each update (on trees where every
node carries a `children` field, the recomputation ignores any stored
values). -/
theorem c9_view_reads_tree_only :
    (∀ t : JsNode, render_tree (eraseValues t) = render_tree t) ∧
    (∀ t : JsNode, allKids t = true →
      update_flame_chart_data (eraseValues t) = update_flame_chart_data t) ∧
    (∀ en : ExportNode, noStoredValues (exportNodeToJs en) = true ∧
      allKids (exportNodeToJs en) = true) := by
  refine ⟨render_tree_eraseValues, ?_, exportNodeToJs_wellFormed⟩
  intro t h
  exact set_durations_eraseValues t h

theorem c9_witness :
    allKids (JsNode.mk "root" none (some []) none) = true ∧
    update_flame_chart_data (eraseValues (JsNode.mk "root" none (some []) none)) =
      update_flame_chart_data (JsNode.mk "root" none (some []) none) :=
  ⟨by simp [allKids, allKids_list],
    c9_view_reads_tree_only.2.1 _ (by simp [allKids, allKids_list])⟩

/-- C10: `set_durations` sets the `value` of every node that has a
`children` field to 1 plus the sum of the recursively computed values of
its children (so on a tree where every node carries a children array —
an empty one on leaves — each node's value is the number of nodes in its
subtree, a descendant count), and leaves a node without a `children`
field entirely unchanged. -/
theorem c10_set_durations_spec :
    (∀ (n : String) (d : Option String) (v : Option JsNum),
      set_durations (JsNode.mk n d none v) = JsNode.mk n d none v) ∧
    (∀ (n : String) (d : Option String) (cs : List JsNode)
      (v : Option JsNum) (vals : List Nat),
      (set_durations_list cs).map JsNode.value =
          vals.map (fun k => some (JsNum.num k)) →
      (set_durations (JsNode.mk n d (some cs) v)).value =
        some (JsNum.num (1 + vals.sum))) ∧
    (∀ t : JsNode, allKids t = true →
      (set_durations t).value = some (JsNum.num (countNodes t))) := by
  refine ⟨?_, ?_, set_durations_count⟩
  · intro n d v
    simp [set_durations]
  · intro n d cs v vals h
    simp only [set_durations, JsNode.value_mk]
    rw [foldl_jsAddV _ vals h 1]

theorem c10_witness :
    ((set_durations_list [JsNode.mk "b" none none (some (JsNum.num 4))]).map
        JsNode.value = [4].map (fun k => some (JsNum.num k))) ∧
    (set_durations (JsNode.mk "a" none
        (some [JsNode.mk "b" none none (some (JsNum.num 4))]) none)).value =
      some (JsNum.num (1 + [4].sum)) ∧
    allKids (JsNode.mk "a" none
      (some [JsNode.mk "b" none (some []) none]) none) = true ∧
    (set_durations (JsNode.mk "a" none
        (some [JsNode.mk "b" none (some []) none]) none)).value =
      some (JsNum.num (countNodes (JsNode.mk "a" none
        (some [JsNode.mk "b" none (some []) none]) none))) := by
  refine ⟨?_, ?_, ?_, ?_⟩
  · simp [set_durations_list, set_durations]
  · exact c10_set_durations_spec.2.1 "a" none _ none [4]
      (by simp [set_durations_list, set_durations])
  · simp [allKids, allKids_list]
  · exact c10_set_durations_spec.2.2 _ (by simp [allKids, allKids_list])

end ContextTracer
